import Mathlib

/-!
# cm-to-helm: the reconciliation loop of `cmd/main.go`

A shallow embedding of the polling loop in `main` (lines 77-142 of `cmd/main.go`):
every tick lists the ConfigMaps of a namespace, installs or upgrades a Helm release
for each ConfigMap whose `trigger-install` annotation is `true`, and uninstalls the
releases whose ConfigMap is gone.

* Go `map[string]string` values are association lists (`GoMap`).
* The Helm actions and the YAML decoder are external: they are parameters
  (`Backend`, `Env.unmarshal`).  The backend carries an arbitrary state `B`, so the
  outcome of a call may depend on everything that happened before it.
* Every backend call is recorded in a trace together with its outcome, so that
  statements about "which calls a tick issues" can be made.
* The order in which Go ranges over a map is unspecified: it is a parameter
  (`RangeOrder`) of every tick.
* The `for` loop never ends by itself; `mainLoop` runs it for a given finite sequence of
  answers of `List` and returns a `Run`: the store, the backend state, the calls of each
  completed iteration and the panic, if there was one.
* A listing is the answer of `ConfigMaps(ns).List` for one namespace, in which object names
  are pairwise distinct (`UniqueNames`).  Statements that depend on it assume that the
  triggering objects have distinct names (`DistinctTriggers`), which `UniqueNames` implies.
* `install.Namespace` and `upgrade.Namespace` are set to the same `ns` in every call and
  are left out of the recorded calls.
-/

namespace CmToHelm

/-! ## Go maps with string keys and values -/

/-- A Go `map[string]string`: the first pair with a given key is the binding of that key. -/
abbrev GoMap := List (String × String)

namespace GoMap

/-- The comma-ok lookup `v, exists := m[k]`. -/
def get? : GoMap → String → Option String
  | [], _ => none
  | (k', v) :: t, k => if k' = k then some v else get? t k

/-- The plain lookup `m[k]`: a missing key yields the zero value `""`. -/
def get (m : GoMap) (k : String) : String := (m.get? k).getD ""

/-- The test `_, exists := m[k]; exists`. -/
def has (m : GoMap) (k : String) : Bool := (m.get? k).isSome

/-- Removal of every binding of `k`, `delete(m, k)`. -/
def delete (m : GoMap) (k : String) : GoMap := m.filter (fun e => decide (e.1 ≠ k))

/-- The assignment `m[k] = v`. -/
def set (m : GoMap) (k v : String) : GoMap := (k, v) :: m.delete k

/-- The keys of the map, each once. -/
def keys : GoMap → List String
  | [] => []
  | (k, _) :: t => if k ∈ keys t then keys t else k :: keys t

end GoMap

/-! ## Inputs -/

/-- The fields of a `v1.ConfigMap` that `main` reads. -/
structure ConfigMap where
  Name : String
  Annotations : GoMap
  Data : GoMap
deriving DecidableEq, Repr

/-- The rune map of Go `strings.ToLower`, as far as ASCII results go: `A`-`Z` are shifted
to `a`-`z`, and the only two other runes whose lower case is an ASCII letter are U+0130
(to `i`) and U+212A (to `k`).  Every other rune is left as it is here; Go sends a
non-ASCII rune to a non-ASCII rune, so equality of the result with an ASCII string is
not affected. -/
def toLowerRune (c : Char) : Char :=
  if 65 ≤ c.toNat ∧ c.toNat ≤ 90 then Char.ofNat (c.toNat + 32)
  else if c.toNat = 0x130 then 'i'
  else if c.toNat = 0x212A then 'k'
  else c

/-- Go `strings.ToLower`: the string of the lower-cased runes. -/
def stringsToLower (s : String) : String := String.mk (s.data.map toLowerRune)

/-- The guard of line 85:
`strings.ToLower(configMap.Annotations["trigger-install"]) == "true"`. -/
def isTrigger (configMap : ConfigMap) : Bool :=
  decide (stringsToLower (configMap.Annotations.get "trigger-install") = "true")

/-- The payload `configMap.Data["values.yaml"]`. -/
def valuesYaml (configMap : ConfigMap) : String := configMap.Data.get "values.yaml"

/-! ## The release backend and the trace of its calls -/

/-- A call to one of the three Helm actions. `V` is the type of decoded values. -/
inductive Call (V : Type) where
  | install (releaseName : String) (values : V)
  | upgrade (releaseName : String) (values : V)
  | uninstall (releaseName : String)
deriving DecidableEq, Repr

/-- The release a call is about. -/
def Call.name {V : Type} : Call V → String
  | .install n _ => n
  | .upgrade n _ => n
  | .uninstall n => n

/-- Whether a call is an uninstall call. -/
def Call.isUninstall {V : Type} : Call V → Bool
  | .install _ _ => false
  | .upgrade _ _ => false
  | .uninstall _ => true

/-- A call together with its outcome: `ok` is `err == nil`. -/
structure Event (V : Type) where
  call : Call V
  ok : Bool
deriving DecidableEq, Repr

/-- The Helm actions `install.Run`, `upgrade.Run` and `uninstall.Run`, over a backend
state of type `B`: each returns the next backend state and whether `err == nil`. -/
structure Backend (V B : Type) where
  install : B → String → V → B × Bool
  upgrade : B → String → V → B × Bool
  uninstall : B → String → B × Bool

/-- The external collaborators of the loop: `yaml.Unmarshal` (`none` is a decoding
error) and the Helm actions. -/
structure Env (V B : Type) where
  unmarshal : String → Option V
  helm : Backend V B

/-- The order in which a `range` over a map yields its keys: some rearrangement of them. -/
structure RangeOrder where
  order : List String → List String
  perm : ∀ l, (order l).Perm l

/-- The range order that yields the keys as they are stored. -/
def RangeOrder.stored : RangeOrder := ⟨fun l => l, fun l => List.Perm.refl l⟩

/-! ## The loop -/

/-- The variables of one iteration of the `for` loop of `main`. -/
structure State (V B : Type) where
  handledConfigMaps : GoMap
  seenConfigMaps : GoMap
  helm : B
  trace : List (Event V)

/-- The body of the first inner loop (lines 85-127) for one listed ConfigMap. -/
def processConfigMap {V B : Type} (env : Env V B) (st : State V B) (configMap : ConfigMap) :
    State V B :=
  if isTrigger configMap then
    let st1 := { st with seenConfigMaps := st.seenConfigMaps.set configMap.Name configMap.Name }
    if st1.handledConfigMaps.has configMap.Name then
      if st1.handledConfigMaps.get configMap.Name ≠ valuesYaml configMap then
        match env.unmarshal (valuesYaml configMap) with
        | none => st1
        | some values =>
          let r := env.helm.upgrade st1.helm configMap.Name values
          let st2 := { st1 with
            helm := r.1,
            trace := st1.trace ++ [Event.mk (Call.upgrade configMap.Name values) r.2] }
          if r.2 = false then st2
          else { st2 with handledConfigMaps :=
                   st2.handledConfigMaps.set configMap.Name (valuesYaml configMap) }
      else st1
    else
      match env.unmarshal (valuesYaml configMap) with
      | none => st1
      | some values =>
        let r := env.helm.install st1.helm configMap.Name values
        let st2 := { st1 with
          helm := r.1,
          trace := st1.trace ++ [Event.mk (Call.install configMap.Name values) r.2] }
        if r.2 = false then
          { st2 with handledConfigMaps := st2.handledConfigMaps.set configMap.Name "" }
        else { st2 with handledConfigMaps :=
                 st2.handledConfigMaps.set configMap.Name (valuesYaml configMap) }
  else st

/-- The body of the second inner loop (lines 130-139) for one key of `handledConfigMaps`. -/
def uninstallStale {V B : Type} (env : Env V B) (st : State V B) (name : String) : State V B :=
  if st.seenConfigMaps.has name then st
  else
    let r := env.helm.uninstall st.helm name
    let st1 := { st with helm := r.1, trace := st.trace ++ [Event.mk (Call.uninstall name) r.2] }
    if r.2 = false then st1
    else { st1 with handledConfigMaps := st1.handledConfigMaps.delete name }

/-- The first inner loop (lines 84-128), over the listed items in order. -/
def installLoop {V B : Type} (env : Env V B) (st : State V B) (items : List ConfigMap) :
    State V B :=
  items.foldl (processConfigMap env) st

/-- The second inner loop (lines 129-140).  The keys are those of `handledConfigMaps`
when the loop starts, in the order chosen by `ro`; the body deletes no key but the one it
is visiting, so no key is skipped and none is visited twice. -/
def uninstallLoop {V B : Type} (env : Env V B) (ro : RangeOrder) (st : State V B) : State V B :=
  (ro.order st.handledConfigMaps.keys).foldl (uninstallStale env) st

/-- One iteration of the `for` loop after a successful `List` (lines 79, 84-140): a fresh
`seenConfigMaps`, then the two inner loops.  The trace of the result holds the calls of
this iteration only. -/
def reconcile {V B : Type} (env : Env V B) (ro : RangeOrder) (items : List ConfigMap)
    (handledConfigMaps : GoMap) (helm : B) : State V B :=
  uninstallLoop env ro (installLoop env ⟨handledConfigMaps, [], helm, []⟩ items)

/-- One iteration of the `for` loop (lines 79-140).  `listed` is the result of
`clientset.CoreV1().ConfigMaps(ns).List`; an error makes `main` panic (line 82), which
is the `Except.error` result. -/
def tick {V B : Type} (env : Env V B) (ro : RangeOrder)
    (listed : Except String (List ConfigMap)) (handledConfigMaps : GoMap) (helm : B) :
    Except String (State V B) :=
  match listed with
  | Except.error err => Except.error err
  | Except.ok items => Except.ok (reconcile env ro items handledConfigMaps helm)

/-- What is known of a run of the `for` loop of `main`: the store and the backend as the
last completed iteration left them, the listing and the calls of every completed iteration
in order, and the message of the panic that ended the run, if one did. -/
structure Run (V B : Type) where
  handledConfigMaps : GoMap
  helm : B
  history : List (List ConfigMap × List (Event V))
  panic : Option String

/-- One more iteration of the `for` loop (lines 78-142).  `t.2` is the answer of `List`
and `t.1` the range order of the second inner loop.  After a panic nothing runs any more;
an error of `List` is a panic (line 82), before `handledConfigMaps` is read or written and
before any call. -/
def runTick {V B : Type} (env : Env V B) (r : Run V B)
    (t : RangeOrder × Except String (List ConfigMap)) : Run V B :=
  match r.panic with
  | some _ => r
  | none =>
    match t.2 with
    | Except.error err => { r with panic := some err }
    | Except.ok items =>
      let st := reconcile env t.1 items r.handledConfigMaps r.helm
      { handledConfigMaps := st.handledConfigMaps, helm := st.helm,
        history := r.history ++ [(items, st.trace)], panic := none }

/-- The `for` loop of `main` (lines 77-142), run for as many iterations as there are
answers of `List` in `ticks`, from the given store and backend state. -/
def mainLoop {V B : Type} (env : Env V B)
    (ticks : List (RangeOrder × Except String (List ConfigMap))) (handledConfigMaps : GoMap)
    (helm : B) : Run V B :=
  ticks.foldl (runTick env) ⟨handledConfigMaps, helm, [], none⟩

/-- All the calls of a run, in order. -/
def Run.trace {V B : Type} (r : Run V B) : List (Event V) := (r.history.map Prod.snd).flatten

/-- Two consecutive iterations with successful listings `items1` and `items2`: the state
after the second one, whose trace holds the calls of the second iteration. -/
def secondTick {V B : Type} (env : Env V B) (ro1 : RangeOrder) (items1 : List ConfigMap)
    (ro2 : RangeOrder) (items2 : List ConfigMap) (handledConfigMaps : GoMap) (helm : B) :
    State V B :=
  reconcile env ro2 items2 (reconcile env ro1 items1 handledConfigMaps helm).handledConfigMaps
    (reconcile env ro1 items1 handledConfigMaps helm).helm

/-! ## Vocabulary of the statements -/

/-- The events of a trace that are about release `id`. -/
def eventsFor {V : Type} (id : String) (trace : List (Event V)) : List (Event V) :=
  trace.filter (fun e => decide (e.call.name = id))

/-- The objects of a listing have pairwise distinct names, as the objects of one namespace
have. -/
def UniqueNames (items : List ConfigMap) : Prop := (items.map ConfigMap.Name).Nodup

instance (items : List ConfigMap) : Decidable (UniqueNames items) := by
  unfold UniqueNames
  infer_instance

/-- The triggering objects of a listing have pairwise distinct names. -/
def DistinctTriggers (items : List ConfigMap) : Prop :=
  ((items.filter isTrigger).map ConfigMap.Name).Nodup

instance (items : List ConfigMap) : Decidable (DistinctTriggers items) := by
  unfold DistinctTriggers
  infer_instance

/-- Release `id` is in the Desired Set of the listing with payload `p`: some listed
object with a true trigger marker has name `id` and `values.yaml` field `p`. -/
def Desired (items : List ConfigMap) (id p : String) : Prop :=
  ∃ cm ∈ items, isTrigger cm = true ∧ cm.Name = id ∧ valuesYaml cm = p

/-- Release `id` is absent from the Desired Set of the listing. -/
def Undesired (items : List ConfigMap) (id : String) : Prop :=
  ∀ cm ∈ items, isTrigger cm = true → cm.Name ≠ id

instance (items : List ConfigMap) (id : String) : Decidable (Undesired items id) := by
  unfold Undesired
  infer_instance

/-- The strings that equal `true` when letter case is ignored. -/
def trueSpellings : List String :=
  ["true", "truE", "trUe", "trUE", "tRue", "tRuE", "tRUe", "tRUE",
   "True", "TruE", "TrUe", "TrUE", "TRue", "TRuE", "TRUe", "TRUE"]

/-- The call that section 4.2 of the specification prescribes for one release in one tick,
from its Fingerprint Entry (`none`: no entry) and its payload in the Desired Set (`none`:
not in the set): install on first sight, upgrade when the entry differs from the payload,
nothing when they are equal or when the payload does not parse, uninstall when the release
is tracked and not in the set. -/
def plannedCall {V : Type} (unmarshal : String → Option V) (id : String)
    (entry payload : Option String) : Option (Call V) :=
  match payload, entry with
  | some p, none => (unmarshal p).map (Call.install id)
  | some p, some e => if e = p then none else (unmarshal p).map (Call.upgrade id)
  | none, some _ => some (Call.uninstall id)
  | none, none => none

/-- The entry that section 4.2 of the specification prescribes for a release after a tick,
from its entry before the tick, its payload in the Desired Set and the events of the tick
for the release: a successful install or upgrade stores the payload, a failed install the
empty string, a successful uninstall removes the entry, and nothing else changes it. -/
def entryAfter {V : Type} (entry payload : Option String) : List (Event V) → Option String
  | [] => entry
  | e :: _ =>
    match e.call with
    | Call.install _ _ => if e.ok = true then payload else some ""
    | Call.upgrade _ _ => if e.ok = true then payload else entry
    | Call.uninstall _ => if e.ok = true then none else entry

/-- An install call has been issued for `id`, and since the most recent one no uninstall
of `id` has succeeded. -/
def InstalledSince {V : Type} (id : String) (trace : List (Event V)) : Prop :=
  ∃ pre post v ok, trace = pre ++ Event.mk (Call.install id v) ok :: post ∧
    (∀ e ∈ post, ∀ w, e.call ≠ Call.install id w) ∧
    (∀ e ∈ post, ¬ (e.call = Call.uninstall id ∧ e.ok = true))

/-- Whether a trace holds a successful install or upgrade of `id`. -/
def succeeded {V : Type} (id : String) (trace : List (Event V)) : Bool :=
  trace.any (fun e => e.ok && !e.call.isUninstall && decide (e.call.name = id))

/-- The payload of `id` in the Desired Set of a listing: the `values.yaml` field of the
first triggering object named `id`. -/
def payloadOf (items : List ConfigMap) (id : String) : Option String :=
  (items.find? (fun cm => isTrigger cm && decide (cm.Name = id))).map valuesYaml

/-- The raw payload of the most recent successful install or upgrade of `id` in a history
of iterations. -/
def lastApplied {V : Type} (id : String)
    (history : List (List ConfigMap × List (Event V))) : Option String :=
  history.foldl (fun acc t => if succeeded id t.2 = true then payloadOf t.1 id else acc) none

/-! ## Sample collaborators and listings -/

/-- A decoder for examples: it rejects the payload `a: b: c` and returns every other
payload without its blanks, so that `replicas: 1` and `replicas:  1` decode to the same
values. -/
def sampleUnmarshal (s : String) : Option String :=
  if s = "a: b: c" then none else some (String.mk (s.data.filter (fun c => decide (c ≠ ' '))))

/-- A backend for examples: its state is the list of the outcomes of the calls to come
(`true` once the list is used up). -/
def scripted : Backend String (List Bool) where
  install := fun b _ _ => (b.tail, b.headD true)
  upgrade := fun b _ _ => (b.tail, b.headD true)
  uninstall := fun b _ => (b.tail, b.headD true)

/-- The collaborators for examples. -/
def sampleEnv : Env String (List Bool) := ⟨sampleUnmarshal, scripted⟩

/-- A ConfigMap with a true trigger marker and the given payload. -/
def triggerCM (name payload : String) : ConfigMap :=
  ⟨name, [("trigger-install", "true")], [("values.yaml", payload)]⟩

/-- A ConfigMap without annotations, with the given payload. -/
def plainCM (name payload : String) : ConfigMap :=
  ⟨name, [], [("values.yaml", payload)]⟩

/-- A ConfigMap with a true trigger marker and no `values.yaml` field: its payload is the
empty string. -/
def bareTriggerCM (name : String) : ConfigMap := ⟨name, [("trigger-install", "true")], []⟩

/-- A listing with a triggering object whose payload does not decode, and two others. -/
def badListing : List ConfigMap :=
  [triggerCM "A" "a: b: c", triggerCM "B" "replicas: 2", plainCM "D" "replicas: 3"]

/-- A ConfigMap whose `trigger-install` annotation is `marker`. -/
def markedCM (name marker : String) : ConfigMap := ⟨name, [("trigger-install", marker)], []⟩

/-- A listing with one object that does not trigger and one that does. -/
def mixedListing : List ConfigMap := [plainCM "B" "replicas: 3", triggerCM "A" "replicas: 1"]

/-- The four listings of the scenario of section 8 of the specification, each with the
range order of its tick: release `A` with `replicas: 1` twice, then with `replicas: 2`,
then no object at all. -/
def scenario (ro1 ro2 ro3 ro4 : RangeOrder) :
    List (RangeOrder × Except String (List ConfigMap)) :=
  [(ro1, Except.ok [triggerCM "A" "replicas: 1"]), (ro2, Except.ok [triggerCM "A" "replicas: 1"]),
   (ro3, Except.ok [triggerCM "A" "replicas: 2"]), (ro4, Except.ok [])]

/-- A listing without any triggering object. -/
def idleListing : List ConfigMap := [plainCM "B" "replicas: 3", markedCM "D" "yes"]

/-- A listing whose only object is triggering and has a payload that does not decode. -/
def brokenListing : List ConfigMap := [triggerCM "A" "a: b: c"]

/-- A listing with two triggering objects. -/
def busyListing : List ConfigMap := [triggerCM "A" "replicas: 1", triggerCM "B" "replicas: 2"]

/-- A backend for examples whose every call succeeds. -/
def obliging : Backend String Unit where
  install := fun b _ _ => (b, true)
  upgrade := fun b _ _ => (b, true)
  uninstall := fun b _ => (b, true)

/-- The sample decoder with the backend whose every call succeeds. -/
def obligingEnv : Env String Unit := ⟨sampleUnmarshal, obliging⟩

/-! ## Go maps: lookup after update -/

theorem GoMap.get?_delete_self (m : GoMap) (k : String) : (m.delete k).get? k = none := by
  induction m with
  | nil => rfl
  | cons e t ih =>
    obtain ⟨k', v⟩ := e
    by_cases h : k' = k
    · simpa [GoMap.delete, h] using ih
    · simpa [GoMap.delete, h, GoMap.get?] using ih

theorem GoMap.get?_delete_ne (m : GoMap) {k j : String} (h : k ≠ j) :
    (m.delete k).get? j = m.get? j := by
  induction m with
  | nil => rfl
  | cons e t ih =>
    obtain ⟨k', v⟩ := e
    by_cases hk : k' = k
    · subst hk
      simpa [GoMap.delete, GoMap.get?, h] using ih
    · by_cases hj : k' = j
      · subst hj
        simp [GoMap.delete, GoMap.get?, List.filter_cons, hk]
      · simpa [GoMap.delete, GoMap.get?, hk, hj] using ih

theorem GoMap.get?_set_self (m : GoMap) (k v : String) : (m.set k v).get? k = some v := by
  simp [GoMap.set, GoMap.get?]

theorem GoMap.get?_set_ne (m : GoMap) {k j : String} (v : String) (h : k ≠ j) :
    (m.set k v).get? j = m.get? j := by
  simp [GoMap.set, GoMap.get?, h, GoMap.get?_delete_ne]

theorem GoMap.mem_keys (m : GoMap) (k : String) : k ∈ m.keys ↔ m.get? k ≠ none := by
  induction m with
  | nil => simp [GoMap.keys, GoMap.get?]
  | cons e t ih =>
    obtain ⟨k', v⟩ := e
    by_cases hk : k' = k
    · subst hk
      by_cases hm : k' ∈ GoMap.keys t <;> simp [GoMap.keys, GoMap.get?, hm]
    · by_cases hm : k' ∈ GoMap.keys t
      · simpa [GoMap.keys, GoMap.get?, hm, hk] using ih
      · have hk2 : ¬ k = k' := fun h => hk h.symm
        simpa [GoMap.keys, GoMap.get?, hm, hk, hk2] using ih

theorem GoMap.keys_nodup (m : GoMap) : m.keys.Nodup := by
  induction m with
  | nil => simp [GoMap.keys]
  | cons e t ih =>
    obtain ⟨k', v⟩ := e
    by_cases hm : k' ∈ GoMap.keys t
    · simpa [GoMap.keys, hm] using ih
    · simp [GoMap.keys, hm, ih]

theorem GoMap.has_eq_true (m : GoMap) (k : String) : m.has k = true ↔ m.get? k ≠ none := by
  cases h : m.get? k <;> simp [GoMap.has, h]

theorem GoMap.has_eq_false (m : GoMap) (k : String) : m.has k = false ↔ m.get? k = none := by
  cases h : m.get? k <;> simp [GoMap.has, h]

/-! ## Traces -/

theorem eventsFor_append {V : Type} (id : String) (a b : List (Event V)) :
    eventsFor id (a ++ b) = eventsFor id a ++ eventsFor id b := by
  simp [eventsFor]

theorem eventsFor_single_ne {V : Type} {id : String} {e : Event V} (h : e.call.name ≠ id) :
    eventsFor id [e] = [] := by
  simp [eventsFor, h]

theorem eventsFor_single_eq {V : Type} {id : String} {e : Event V} (h : e.call.name = id) :
    eventsFor id [e] = [e] := by
  simp [eventsFor, h]

/-! ## One step of the first inner loop -/

/-- An object that is not triggering leaves every variable as it is. -/
theorem processConfigMap_skip {V B : Type} (env : Env V B) (st : State V B) (cm : ConfigMap)
    (h : isTrigger cm = false) : processConfigMap env st cm = st := by
  simp [processConfigMap, h]

/-- A step for an object with another name leaves the entry, the events and the seen mark
of `id` as they are. -/
theorem processConfigMap_other {V B : Type} (env : Env V B) (st : State V B) (cm : ConfigMap)
    (id : String) (h : cm.Name ≠ id) :
    (processConfigMap env st cm).handledConfigMaps.get? id = st.handledConfigMaps.get? id ∧
    (processConfigMap env st cm).seenConfigMaps.get? id = st.seenConfigMaps.get? id ∧
    eventsFor id (processConfigMap env st cm).trace = eventsFor id st.trace := by
  unfold processConfigMap
  split_ifs <;> (try cases env.unmarshal (valuesYaml cm)) <;>
    simp [GoMap.get?_set_ne, eventsFor_append, eventsFor_single_ne, Call.name, h]
  all_goals
    split_ifs <;>
      simp [GoMap.get?_set_ne, eventsFor_append, eventsFor_single_ne, Call.name, h]

/-- A step for an object that is not a triggering object named `id` leaves the entry, the
events and the seen mark of `id` as they are. -/
theorem processConfigMap_frame {V B : Type} (env : Env V B) (st : State V B) (cm : ConfigMap)
    (id : String) (h : isTrigger cm = true → cm.Name ≠ id) :
    (processConfigMap env st cm).handledConfigMaps.get? id = st.handledConfigMaps.get? id ∧
    (processConfigMap env st cm).seenConfigMaps.get? id = st.seenConfigMaps.get? id ∧
    eventsFor id (processConfigMap env st cm).trace = eventsFor id st.trace := by
  cases ht : isTrigger cm with
  | false => rw [processConfigMap_skip env st cm ht]; exact ⟨rfl, rfl, rfl⟩
  | true => exact processConfigMap_other env st cm id (h ht)

/-- A triggering object is marked as seen. -/
theorem processConfigMap_seen {V B : Type} (env : Env V B) (st : State V B) (cm : ConfigMap)
    (ht : isTrigger cm = true) :
    (processConfigMap env st cm).seenConfigMaps.get? cm.Name = some cm.Name := by
  unfold processConfigMap
  simp only [ht, if_true]
  split_ifs <;> (try cases env.unmarshal (valuesYaml cm)) <;> simp [GoMap.get?_set_self]
  all_goals split_ifs <;> simp [GoMap.get?_set_self]

/-- First sight of a release whose payload decodes: one install call; the entry becomes the
payload if the call succeeds and the empty string if it fails. -/
theorem processConfigMap_install {V B : Type} (env : Env V B) (st : State V B) (cm : ConfigMap)
    (v : V) (ht : isTrigger cm = true) (he : st.handledConfigMaps.get? cm.Name = none)
    (hp : env.unmarshal (valuesYaml cm) = some v) :
    ∃ ok : Bool,
      (processConfigMap env st cm).trace = st.trace ++ [Event.mk (Call.install cm.Name v) ok] ∧
      (processConfigMap env st cm).handledConfigMaps.get? cm.Name =
        some (if ok = true then valuesYaml cm else "") := by
  refine ⟨(env.helm.install st.helm cm.Name v).2, ?_⟩
  have hh : st.handledConfigMaps.has cm.Name = false := (GoMap.has_eq_false _ _).2 he
  unfold processConfigMap
  simp only [ht, if_true, hh, hp]
  cases hr : (env.helm.install st.helm cm.Name v).2 <;> simp [GoMap.get?_set_self]

/-- A tracked release whose payload differs from its entry and decodes: one upgrade call;
the entry becomes the payload if the call succeeds and stays if it fails. -/
theorem processConfigMap_upgrade {V B : Type} (env : Env V B) (st : State V B) (cm : ConfigMap)
    (old : String) (v : V) (ht : isTrigger cm = true)
    (he : st.handledConfigMaps.get? cm.Name = some old) (hne : old ≠ valuesYaml cm)
    (hp : env.unmarshal (valuesYaml cm) = some v) :
    ∃ ok : Bool,
      (processConfigMap env st cm).trace = st.trace ++ [Event.mk (Call.upgrade cm.Name v) ok] ∧
      (processConfigMap env st cm).handledConfigMaps.get? cm.Name =
        some (if ok = true then valuesYaml cm else old) := by
  refine ⟨(env.helm.upgrade st.helm cm.Name v).2, ?_⟩
  have hh : st.handledConfigMaps.has cm.Name = true := by simp [GoMap.has, he]
  have hg : st.handledConfigMaps.get cm.Name = old := by simp [GoMap.get, he]
  unfold processConfigMap
  simp only [ht, if_true, hh, hg, hp, ne_eq, hne, not_false_eq_true]
  cases hr : (env.helm.upgrade st.helm cm.Name v).2 <;> simp [GoMap.get?_set_self, he]

/-- A tracked release whose payload equals its entry: no call, the entry stays. -/
theorem processConfigMap_same {V B : Type} (env : Env V B) (st : State V B) (cm : ConfigMap)
    (ht : isTrigger cm = true)
    (he : st.handledConfigMaps.get? cm.Name = some (valuesYaml cm)) :
    (processConfigMap env st cm).trace = st.trace ∧
    (processConfigMap env st cm).handledConfigMaps.get? cm.Name = some (valuesYaml cm) := by
  have hh : st.handledConfigMaps.has cm.Name = true := by simp [GoMap.has, he]
  have hg : st.handledConfigMaps.get cm.Name = valuesYaml cm := by simp [GoMap.get, he]
  unfold processConfigMap
  simp [ht, hh, hg, he]

/-- A payload that does not decode: no call, the entry stays as it was. -/
theorem processConfigMap_undecodable {V B : Type} (env : Env V B) (st : State V B)
    (cm : ConfigMap) (hp : env.unmarshal (valuesYaml cm) = none) :
    (processConfigMap env st cm).trace = st.trace ∧
    (processConfigMap env st cm).handledConfigMaps = st.handledConfigMaps := by
  unfold processConfigMap
  simp only [hp]
  split_ifs <;> simp

/-! ## The first inner loop -/

theorem installLoop_cons {V B : Type} (env : Env V B) (st : State V B) (cm : ConfigMap)
    (items : List ConfigMap) :
    installLoop env st (cm :: items) = installLoop env (processConfigMap env st cm) items := rfl

/-- The first loop leaves alone a release that no triggering object names. -/
theorem installLoop_frame {V B : Type} (env : Env V B) (items : List ConfigMap) (id : String)
    (h : Undesired items id) (st : State V B) :
    (installLoop env st items).handledConfigMaps.get? id = st.handledConfigMaps.get? id ∧
    (installLoop env st items).seenConfigMaps.get? id = st.seenConfigMaps.get? id ∧
    eventsFor id (installLoop env st items).trace = eventsFor id st.trace := by
  induction items generalizing st with
  | nil => exact ⟨rfl, rfl, rfl⟩
  | cons c t ih =>
    have hc := processConfigMap_frame env st c id (h c (List.mem_cons_self c t))
    have ht := ih (fun x hx => h x (List.mem_cons_of_mem c hx)) (processConfigMap env st c)
    rw [installLoop_cons]
    exact ⟨ht.1.trans hc.1, ht.2.1.trans hc.2.1, ht.2.2.trans hc.2.2⟩

theorem DistinctTriggers.tail {c : ConfigMap} {t : List ConfigMap}
    (h : DistinctTriggers (c :: t)) : DistinctTriggers t := by
  unfold DistinctTriggers at *
  cases hc : isTrigger c <;> simp [List.filter_cons, hc] at h
  · exact h
  · exact h.2

theorem DistinctTriggers.head {c : ConfigMap} {t : List ConfigMap}
    (h : DistinctTriggers (c :: t)) (hc : isTrigger c = true) : Undesired t c.Name := by
  unfold DistinctTriggers at h
  simp [List.filter_cons, hc] at h
  intro x hx hxt hname
  exact h.1 x hx hxt hname

/-- With distinct triggering names, what the first loop does to the release of a triggering
object is what the step for that object does, from a state `st0` in which the entry and the
events of the release are still those of the start. -/
theorem installLoop_desired {V B : Type} (env : Env V B) (items : List ConfigMap)
    (cm : ConfigMap) (hd : DistinctTriggers items) (hm : cm ∈ items)
    (ht : isTrigger cm = true) (st : State V B) :
    ∃ st0 : State V B,
      st0.handledConfigMaps.get? cm.Name = st.handledConfigMaps.get? cm.Name ∧
      eventsFor cm.Name st0.trace = eventsFor cm.Name st.trace ∧
      (installLoop env st items).handledConfigMaps.get? cm.Name =
        (processConfigMap env st0 cm).handledConfigMaps.get? cm.Name ∧
      eventsFor cm.Name (installLoop env st items).trace =
        eventsFor cm.Name (processConfigMap env st0 cm).trace ∧
      (installLoop env st items).seenConfigMaps.get? cm.Name = some cm.Name := by
  induction items generalizing st with
  | nil => simp at hm
  | cons c t ih =>
    rw [installLoop_cons]
    by_cases hcm : cm = c
    · subst hcm
      have hf := installLoop_frame env t cm.Name (hd.head ht) (processConfigMap env st cm)
      exact ⟨st, rfl, rfl, hf.1, hf.2.2,
        hf.2.1.trans (processConfigMap_seen env st cm ht)⟩
    · have hmt : cm ∈ t := by
        rcases List.mem_cons.1 hm with h | h
        · exact absurd h hcm
        · exact h
      have hc : isTrigger c = true → c.Name ≠ cm.Name := by
        intro hct hname
        exact hd.head hct cm hmt ht hname.symm
      have hf := processConfigMap_frame env st c cm.Name hc
      obtain ⟨st0, h1, h2, h3, h4, h5⟩ := ih hd.tail hmt (processConfigMap env st c)
      exact ⟨st0, h1.trans hf.1, h2.trans hf.2.2, h3, h4, h5⟩

/-! ## The second inner loop -/

theorem uninstallStale_seen {V B : Type} (env : Env V B) (st : State V B) (name : String) :
    (uninstallStale env st name).seenConfigMaps = st.seenConfigMaps := by
  unfold uninstallStale
  by_cases hs : st.seenConfigMaps.has name = true
  · simp [hs]
  · cases hr : (env.helm.uninstall st.helm name).2 <;> simp [hs, hr]

theorem uninstallStale_other {V B : Type} (env : Env V B) (st : State V B) (name id : String)
    (h : name ≠ id) :
    (uninstallStale env st name).handledConfigMaps.get? id = st.handledConfigMaps.get? id ∧
    eventsFor id (uninstallStale env st name).trace = eventsFor id st.trace := by
  unfold uninstallStale
  by_cases hs : st.seenConfigMaps.has name = true
  · simp [hs]
  · cases hr : (env.helm.uninstall st.helm name).2 <;>
      simp [hs, hr, GoMap.get?_delete_ne, eventsFor_append, eventsFor_single_ne, Call.name, h]

/-- A seen release is left alone by the step of the second loop. -/
theorem uninstallStale_kept {V B : Type} (env : Env V B) (st : State V B) (name : String)
    (h : st.seenConfigMaps.get? name ≠ none) : uninstallStale env st name = st := by
  have hh : st.seenConfigMaps.has name = true := (GoMap.has_eq_true _ _).2 h
  simp [uninstallStale, hh]

/-- An unseen release gets one uninstall call; its entry goes if the call succeeds. -/
theorem uninstallStale_gone {V B : Type} (env : Env V B) (st : State V B) (name : String)
    (h : st.seenConfigMaps.get? name = none) :
    ∃ ok : Bool,
      (uninstallStale env st name).trace = st.trace ++ [Event.mk (Call.uninstall name) ok] ∧
      (uninstallStale env st name).handledConfigMaps.get? name =
        (if ok = true then none else st.handledConfigMaps.get? name) := by
  refine ⟨(env.helm.uninstall st.helm name).2, ?_⟩
  have hh : st.seenConfigMaps.has name = false := (GoMap.has_eq_false _ _).2 h
  unfold uninstallStale
  simp only [hh]
  cases hr : (env.helm.uninstall st.helm name).2 <;> simp [GoMap.get?_delete_self]

theorem uninstallFold_seen {V B : Type} (env : Env V B) (names : List String) (st : State V B) :
    (names.foldl (uninstallStale env) st).seenConfigMaps = st.seenConfigMaps := by
  induction names generalizing st with
  | nil => rfl
  | cons n t ih =>
    rw [List.foldl_cons, ih]
    exact uninstallStale_seen env st n

theorem uninstallFold_frame {V B : Type} (env : Env V B) (names : List String) (id : String)
    (h : id ∉ names) (st : State V B) :
    (names.foldl (uninstallStale env) st).handledConfigMaps.get? id =
      st.handledConfigMaps.get? id ∧
    eventsFor id (names.foldl (uninstallStale env) st).trace = eventsFor id st.trace := by
  induction names generalizing st with
  | nil => exact ⟨rfl, rfl⟩
  | cons n t ih =>
    have hn : n ≠ id := fun e => h (e ▸ List.mem_cons_self n t)
    have ht := ih (fun hm => h (List.mem_cons_of_mem n hm)) (uninstallStale env st n)
    have hs := uninstallStale_other env st n id hn
    rw [List.foldl_cons]
    exact ⟨ht.1.trans hs.1, ht.2.trans hs.2⟩

theorem uninstallFold_kept {V B : Type} (env : Env V B) (names : List String) (id : String)
    (st : State V B) (h : st.seenConfigMaps.get? id ≠ none) :
    (names.foldl (uninstallStale env) st).handledConfigMaps.get? id =
      st.handledConfigMaps.get? id ∧
    eventsFor id (names.foldl (uninstallStale env) st).trace = eventsFor id st.trace := by
  induction names generalizing st with
  | nil => exact ⟨rfl, rfl⟩
  | cons n t ih =>
    rw [List.foldl_cons]
    by_cases hn : n = id
    · subst hn
      rw [uninstallStale_kept env st n h]
      exact ih st h
    · have hs := uninstallStale_other env st n id hn
      have h2 : (uninstallStale env st n).seenConfigMaps.get? id ≠ none := by
        rw [uninstallStale_seen]; exact h
      have ht := ih (uninstallStale env st n) h2
      exact ⟨ht.1.trans hs.1, ht.2.trans hs.2⟩

theorem uninstallFold_gone {V B : Type} (env : Env V B) (names : List String) (id : String)
    (hn : names.Nodup) (hm : id ∈ names) (st : State V B)
    (h : st.seenConfigMaps.get? id = none) :
    ∃ ok : Bool,
      eventsFor id (names.foldl (uninstallStale env) st).trace =
        eventsFor id st.trace ++ [Event.mk (Call.uninstall id) ok] ∧
      (names.foldl (uninstallStale env) st).handledConfigMaps.get? id =
        (if ok = true then none else st.handledConfigMaps.get? id) := by
  induction names generalizing st with
  | nil => simp at hm
  | cons n t ih =>
    rw [List.foldl_cons]
    have hnd := List.nodup_cons.1 hn
    by_cases hid : n = id
    · subst hid
      obtain ⟨ok, h1, h2⟩ := uninstallStale_gone env st n h
      have hf := uninstallFold_frame env t n hnd.1 (uninstallStale env st n)
      refine ⟨ok, ?_, hf.1.trans h2⟩
      rw [hf.2, h1, eventsFor_append, eventsFor_single_eq]
      rfl
    · have hmt : id ∈ t := by
        rcases List.mem_cons.1 hm with e | e
        · exact absurd e.symm hid
        · exact e
      have hs := uninstallStale_other env st n id hid
      have h2 : (uninstallStale env st n).seenConfigMaps.get? id = none := by
        rw [uninstallStale_seen]; exact h
      obtain ⟨ok, h3, h4⟩ := ih hnd.2 hmt (uninstallStale env st n) h2
      exact ⟨ok, by rw [h3, hs.2], by rw [h4, hs.1]⟩

theorem RangeOrder.nodup (ro : RangeOrder) (m : GoMap) : (ro.order m.keys).Nodup :=
  (ro.perm m.keys).nodup_iff.2 m.keys_nodup

theorem RangeOrder.mem (ro : RangeOrder) (m : GoMap) (id : String) :
    id ∈ ro.order m.keys ↔ m.get? id ≠ none :=
  ((ro.perm m.keys).mem_iff).trans (m.mem_keys id)

/-! ## One iteration, release by release -/

/-- The release of a triggering object, when triggering names are distinct: the iteration
does to it what the step for that object does, from a state `st0` that has the entry of
the start and no event of the release yet. -/
theorem reconcile_desired {V B : Type} (env : Env V B) (ro : RangeOrder)
    (items : List ConfigMap) (handled : GoMap) (b : B) (cm : ConfigMap)
    (hd : DistinctTriggers items) (hm : cm ∈ items) (ht : isTrigger cm = true) :
    ∃ st0 : State V B,
      st0.handledConfigMaps.get? cm.Name = handled.get? cm.Name ∧
      eventsFor cm.Name st0.trace = [] ∧
      (reconcile env ro items handled b).handledConfigMaps.get? cm.Name =
        (processConfigMap env st0 cm).handledConfigMaps.get? cm.Name ∧
      eventsFor cm.Name (reconcile env ro items handled b).trace =
        eventsFor cm.Name (processConfigMap env st0 cm).trace := by
  obtain ⟨st0, h1, h2, h3, h4, h5⟩ :=
    installLoop_desired env items cm hd hm ht ⟨handled, [], b, []⟩
  have hk := uninstallFold_kept env
    (ro.order (installLoop env ⟨handled, [], b, []⟩ items).handledConfigMaps.keys) cm.Name
    (installLoop env ⟨handled, [], b, []⟩ items) (by rw [h5]; simp)
  exact ⟨st0, h1, h2, hk.1.trans h3, hk.2.trans h4⟩

/-- An untracked release that no triggering object names: no call, still untracked. -/
theorem reconcile_absent {V B : Type} (env : Env V B) (ro : RangeOrder)
    (items : List ConfigMap) (handled : GoMap) (b : B) (id : String)
    (hu : Undesired items id) (he : handled.get? id = none) :
    eventsFor id (reconcile env ro items handled b).trace = [] ∧
    (reconcile env ro items handled b).handledConfigMaps.get? id = none := by
  have hf := installLoop_frame env items id hu (⟨handled, [], b, []⟩ : State V B)
  have hnot : id ∉ ro.order (installLoop env ⟨handled, [], b, []⟩ items).handledConfigMaps.keys := by
    rw [RangeOrder.mem, hf.1]; simp [he]
  have hk := uninstallFold_frame env _ id hnot (installLoop env ⟨handled, [], b, []⟩ items)
  exact ⟨hk.2.trans hf.2.2, (hk.1.trans hf.1).trans he⟩

/-- A tracked release that no triggering object names: one uninstall call; the entry goes
if the call succeeds and stays if it fails. -/
theorem reconcile_stale {V B : Type} (env : Env V B) (ro : RangeOrder)
    (items : List ConfigMap) (handled : GoMap) (b : B) (id old : String)
    (hu : Undesired items id) (he : handled.get? id = some old) :
    ∃ ok : Bool,
      eventsFor id (reconcile env ro items handled b).trace = [Event.mk (Call.uninstall id) ok] ∧
      (reconcile env ro items handled b).handledConfigMaps.get? id =
        (if ok = true then none else some old) := by
  have hf := installLoop_frame env items id hu (⟨handled, [], b, []⟩ : State V B)
  have hin : id ∈ ro.order (installLoop env ⟨handled, [], b, []⟩ items).handledConfigMaps.keys := by
    rw [RangeOrder.mem, hf.1]; simp [he]
  obtain ⟨ok, h1, h2⟩ := uninstallFold_gone env _ id (ro.nodup _) hin
    (installLoop env ⟨handled, [], b, []⟩ items) (by rw [hf.2.1]; rfl)
  refine ⟨ok, ?_, ?_⟩
  · unfold reconcile uninstallLoop
    rw [h1, hf.2.2]; rfl
  · unfold reconcile uninstallLoop
    rw [h2, hf.1, he]

/-- The release of a triggering object `cm`, when triggering names are distinct: the four
ways an iteration can treat it. -/
theorem reconcile_desired_cases {V B : Type} (env : Env V B) (ro : RangeOrder)
    (items : List ConfigMap) (handled : GoMap) (b : B) (cm : ConfigMap)
    (hd : DistinctTriggers items) (hm : cm ∈ items) (ht : isTrigger cm = true) :
    (handled.get? cm.Name = none ∧ ∃ v ok, env.unmarshal (valuesYaml cm) = some v ∧
      eventsFor cm.Name (reconcile env ro items handled b).trace =
        [Event.mk (Call.install cm.Name v) ok] ∧
      (reconcile env ro items handled b).handledConfigMaps.get? cm.Name =
        some (if ok = true then valuesYaml cm else "")) ∨
    (∃ old v ok, handled.get? cm.Name = some old ∧ old ≠ valuesYaml cm ∧
      env.unmarshal (valuesYaml cm) = some v ∧
      eventsFor cm.Name (reconcile env ro items handled b).trace =
        [Event.mk (Call.upgrade cm.Name v) ok] ∧
      (reconcile env ro items handled b).handledConfigMaps.get? cm.Name =
        some (if ok = true then valuesYaml cm else old)) ∨
    (handled.get? cm.Name = some (valuesYaml cm) ∧
      eventsFor cm.Name (reconcile env ro items handled b).trace = [] ∧
      (reconcile env ro items handled b).handledConfigMaps.get? cm.Name =
        some (valuesYaml cm)) ∨
    (handled.get? cm.Name ≠ some (valuesYaml cm) ∧ env.unmarshal (valuesYaml cm) = none ∧
      eventsFor cm.Name (reconcile env ro items handled b).trace = [] ∧
      (reconcile env ro items handled b).handledConfigMaps.get? cm.Name =
        handled.get? cm.Name) := by
  obtain ⟨st0, h1, h2, h3, h4⟩ := reconcile_desired env ro items handled b cm hd hm ht
  rw [h3, h4]
  by_cases hsame : handled.get? cm.Name = some (valuesYaml cm)
  · obtain ⟨q1, q2⟩ := processConfigMap_same env st0 cm ht (h1.trans hsame)
    exact Or.inr (Or.inr (Or.inl ⟨hsame, by rw [q1, h2], q2⟩))
  · cases hp : env.unmarshal (valuesYaml cm) with
    | none =>
      obtain ⟨q1, q2⟩ := processConfigMap_undecodable env st0 cm hp
      exact Or.inr (Or.inr (Or.inr ⟨hsame, rfl, by rw [q1, h2], by rw [q2, h1]⟩))
    | some v =>
      cases he : handled.get? cm.Name with
      | none =>
        obtain ⟨ok, q1, q2⟩ := processConfigMap_install env st0 cm v ht (h1.trans he) hp
        refine Or.inl ⟨rfl, v, ok, rfl, ?_, q2⟩
        rw [q1, eventsFor_append, h2]
        simp [eventsFor, Call.name]
      | some old =>
        have hne : old ≠ valuesYaml cm := fun e => hsame (by rw [he, e])
        obtain ⟨ok, q1, q2⟩ := processConfigMap_upgrade env st0 cm old v ht (h1.trans he) hne hp
        refine Or.inr (Or.inl ⟨old, v, ok, rfl, hne, rfl, ?_, q2⟩)
        rw [q1, eventsFor_append, h2]
        simp [eventsFor, Call.name]

theorem mem_eventsFor {V : Type} {id : String} {e : Event V} {trace : List (Event V)}
    (h : e ∈ trace) (hn : e.call.name = id) : e ∈ eventsFor id trace := by
  simp [eventsFor, h, hn]

theorem desired_or_undesired (items : List ConfigMap) (id : String) :
    (∃ cm ∈ items, isTrigger cm = true ∧ cm.Name = id) ∨ Undesired items id := by
  by_cases h : ∃ cm ∈ items, isTrigger cm = true ∧ cm.Name = id
  · exact Or.inl h
  · refine Or.inr (fun cm hm ht hn => h ⟨cm, hm, ht, hn⟩)

/-- A release whose entry equals its payload in the Desired Set: no call, the entry stays. -/
theorem reconcile_converged {V B : Type} (env : Env V B) (ro : RangeOrder)
    (items : List ConfigMap) (handled : GoMap) (b : B) (id P : String)
    (hd : DistinctTriggers items) (he : handled.get? id = some P) (hdes : Desired items id P) :
    eventsFor id (reconcile env ro items handled b).trace = [] ∧
    (reconcile env ro items handled b).handledConfigMaps.get? id = some P := by
  obtain ⟨cm, hm, ht, rfl, rfl⟩ := hdes
  rcases reconcile_desired_cases env ro items handled b cm hd hm ht with
    ⟨ho, _⟩ | ⟨old, _, _, ho, hne, _⟩ | ⟨_, hev, hen⟩ | ⟨ho, _⟩
  · rw [he] at ho; cases ho
  · rw [he] at ho; exact absurd (Option.some.inj ho).symm hne
  · exact ⟨hev, hen⟩
  · exact absurd he ho

/-- The calls a tick issues for a release that no triggering object names are uninstall
calls. -/
theorem reconcile_undesired_events {V B : Type} (env : Env V B) (ro : RangeOrder)
    (items : List ConfigMap) (handled : GoMap) (b : B) (id : String) (hu : Undesired items id)
    (e : Event V) (he : e ∈ eventsFor id (reconcile env ro items handled b).trace) :
    e.call = Call.uninstall id := by
  cases hg : handled.get? id with
  | none =>
    rw [(reconcile_absent env ro items handled b id hu hg).1] at he
    cases he
  | some old =>
    obtain ⟨ok, h1, _⟩ := reconcile_stale env ro items handled b id old hu hg
    rw [h1, List.mem_singleton] at he
    rw [he]

/-! ## Steps and loops when names may repeat -/

/-- What a step of the first loop does, in every case. -/
theorem processConfigMap_shape {V B : Type} (env : Env V B) (st : State V B) (cm : ConfigMap) :
    (isTrigger cm = false ∧ processConfigMap env st cm = st) ∨
    (isTrigger cm = true ∧
      (processConfigMap env st cm).seenConfigMaps = st.seenConfigMaps.set cm.Name cm.Name ∧
      (((processConfigMap env st cm).trace = st.trace ∧
          (processConfigMap env st cm).handledConfigMaps = st.handledConfigMaps ∧
          (st.handledConfigMaps.get? cm.Name = some (valuesYaml cm) ∨
            env.unmarshal (valuesYaml cm) = none)) ∨
        (∃ v ok, st.handledConfigMaps.get? cm.Name = none ∧
          env.unmarshal (valuesYaml cm) = some v ∧
          (processConfigMap env st cm).trace =
            st.trace ++ [Event.mk (Call.install cm.Name v) ok] ∧
          (processConfigMap env st cm).handledConfigMaps =
            st.handledConfigMaps.set cm.Name (if ok = true then valuesYaml cm else "")) ∨
        (∃ old v ok, st.handledConfigMaps.get? cm.Name = some old ∧ old ≠ valuesYaml cm ∧
          env.unmarshal (valuesYaml cm) = some v ∧
          (processConfigMap env st cm).trace =
            st.trace ++ [Event.mk (Call.upgrade cm.Name v) ok] ∧
          (processConfigMap env st cm).handledConfigMaps =
            (if ok = true then st.handledConfigMaps.set cm.Name (valuesYaml cm)
             else st.handledConfigMaps)))) := by
  cases ht : isTrigger cm with
  | false => exact Or.inl ⟨rfl, processConfigMap_skip env st cm ht⟩
  | true =>
    refine Or.inr ⟨rfl, ?_, ?_⟩
    · unfold processConfigMap
      simp only [ht, if_true]
      split_ifs <;> (try cases env.unmarshal (valuesYaml cm)) <;> simp
      all_goals split_ifs <;> simp
    · cases hp : env.unmarshal (valuesYaml cm) with
      | none =>
        obtain ⟨q1, q2⟩ := processConfigMap_undecodable env st cm hp
        exact Or.inl ⟨q1, q2, Or.inr rfl⟩
      | some v =>
        cases he : st.handledConfigMaps.get? cm.Name with
        | none =>
          refine Or.inr (Or.inl ⟨v, (env.helm.install st.helm cm.Name v).2, rfl, rfl, ?_⟩)
          have hh : st.handledConfigMaps.has cm.Name = false := (GoMap.has_eq_false _ _).2 he
          unfold processConfigMap
          simp only [ht, if_true, hh, hp]
          cases hr : (env.helm.install st.helm cm.Name v).2 <;> simp
        | some old =>
          have hh : st.handledConfigMaps.has cm.Name = true := by simp [GoMap.has, he]
          have hg : st.handledConfigMaps.get cm.Name = old := by simp [GoMap.get, he]
          by_cases hsame : old = valuesYaml cm
          · refine Or.inl ?_
            unfold processConfigMap
            simp [ht, hh, hg, hsame]
          · refine Or.inr (Or.inr
              ⟨old, v, (env.helm.upgrade st.helm cm.Name v).2, rfl, hsame, rfl, ?_⟩)
            unfold processConfigMap
            simp only [ht, if_true, hh, hg, hp, ne_eq, hsame, not_false_eq_true]
            cases hr : (env.helm.upgrade st.helm cm.Name v).2 <;> simp

/-- What a step of the second loop does, in every case. -/
theorem uninstallStale_shape {V B : Type} (env : Env V B) (st : State V B) (name : String) :
    (st.seenConfigMaps.get? name ≠ none ∧ uninstallStale env st name = st) ∨
    (st.seenConfigMaps.get? name = none ∧
      (uninstallStale env st name).seenConfigMaps = st.seenConfigMaps ∧
      ∃ ok, (uninstallStale env st name).trace =
          st.trace ++ [Event.mk (Call.uninstall name) ok] ∧
        (uninstallStale env st name).handledConfigMaps =
          (if ok = true then st.handledConfigMaps.delete name else st.handledConfigMaps)) := by
  cases hs : st.seenConfigMaps.get? name with
  | some x => exact Or.inl ⟨by simp, uninstallStale_kept env st name (by rw [hs]; simp)⟩
  | none =>
    refine Or.inr ⟨rfl, uninstallStale_seen env st name,
      (env.helm.uninstall st.helm name).2, ?_⟩
    have hh : st.seenConfigMaps.has name = false := (GoMap.has_eq_false _ _).2 hs
    unfold uninstallStale
    simp only [hh]
    cases hr : (env.helm.uninstall st.helm name).2 <;> simp

/-- Steps only add events. -/
theorem processConfigMap_trace_mono {V B : Type} (env : Env V B) (st : State V B)
    (cm : ConfigMap) (e : Event V) (h : e ∈ st.trace) : e ∈ (processConfigMap env st cm).trace := by
  rcases processConfigMap_shape env st cm with ⟨_, h1⟩ | ⟨_, _, ⟨h1, _⟩ | ⟨_, _, _, _, h1, _⟩ |
    ⟨_, _, _, _, _, _, h1, _⟩⟩
  · rw [h1]; exact h
  · rw [h1]; exact h
  · rw [h1]; exact List.mem_append_left _ h
  · rw [h1]; exact List.mem_append_left _ h

theorem installLoop_trace_mono {V B : Type} (env : Env V B) (items : List ConfigMap)
    (st : State V B) (e : Event V) (h : e ∈ st.trace) : e ∈ (installLoop env st items).trace := by
  induction items generalizing st with
  | nil => exact h
  | cons c t ih =>
    rw [installLoop_cons]
    exact ih _ (processConfigMap_trace_mono env st c e h)

theorem uninstallStale_trace_mono {V B : Type} (env : Env V B) (st : State V B)
    (name : String) (e : Event V) (h : e ∈ st.trace) : e ∈ (uninstallStale env st name).trace := by
  rcases uninstallStale_shape env st name with ⟨_, h1⟩ | ⟨_, _, _, h1, _⟩
  · rw [h1]; exact h
  · rw [h1]; exact List.mem_append_left _ h

theorem uninstallFold_trace_mono {V B : Type} (env : Env V B) (names : List String)
    (st : State V B) (e : Event V) (h : e ∈ st.trace) :
    e ∈ (names.foldl (uninstallStale env) st).trace := by
  induction names generalizing st with
  | nil => exact h
  | cons n t ih =>
    rw [List.foldl_cons]
    exact ih _ (uninstallStale_trace_mono env st n e h)

/-- The events of the first loop are events of the iteration. -/
theorem reconcile_trace_mono {V B : Type} (env : Env V B) (ro : RangeOrder)
    (items : List ConfigMap) (handled : GoMap) (b : B) (e : Event V)
    (h : e ∈ (installLoop env ⟨handled, [], b, []⟩ items).trace) :
    e ∈ (reconcile env ro items handled b).trace :=
  uninstallFold_trace_mono env _ _ e h

/-- A seen mark is never taken back by the first loop. -/
theorem processConfigMap_seen_mono {V B : Type} (env : Env V B) (st : State V B)
    (cm : ConfigMap) (id : String) (h : st.seenConfigMaps.get? id ≠ none) :
    (processConfigMap env st cm).seenConfigMaps.get? id ≠ none := by
  rcases processConfigMap_shape env st cm with ⟨_, h1⟩ | ⟨_, h1, _⟩
  · rw [h1]; exact h
  · rw [h1]
    by_cases hn : cm.Name = id
    · rw [hn, GoMap.get?_set_self]; simp
    · rw [GoMap.get?_set_ne _ _ hn]; exact h

theorem installLoop_seen_mono {V B : Type} (env : Env V B) (items : List ConfigMap)
    (id : String) (st : State V B) (h : st.seenConfigMaps.get? id ≠ none) :
    (installLoop env st items).seenConfigMaps.get? id ≠ none := by
  induction items generalizing st with
  | nil => exact h
  | cons c t ih =>
    rw [installLoop_cons]
    exact ih _ (processConfigMap_seen_mono env st c id h)

/-- Every triggering object of the listing is seen after the first loop. -/
theorem installLoop_seen {V B : Type} (env : Env V B) (items : List ConfigMap)
    (cm : ConfigMap) (hm : cm ∈ items) (ht : isTrigger cm = true) (st : State V B) :
    (installLoop env st items).seenConfigMaps.get? cm.Name ≠ none := by
  induction items generalizing st with
  | nil => simp at hm
  | cons c t ih =>
    rw [installLoop_cons]
    rcases List.mem_cons.1 hm with h | h
    · subst h
      exact installLoop_seen_mono env t cm.Name _
        (by rw [processConfigMap_seen env st cm ht]; simp)
    · exact ih h _

/-- A tracked release stays tracked through a step of the first loop, and the step issues
no install call for it. -/
theorem processConfigMap_tracked {V B : Type} (env : Env V B) (st : State V B)
    (cm : ConfigMap) (id : String) (h : st.handledConfigMaps.get? id ≠ none) :
    (processConfigMap env st cm).handledConfigMaps.get? id ≠ none ∧
    ∀ e ∈ (processConfigMap env st cm).trace,
      e ∈ st.trace ∨ ∀ w, e.call ≠ Call.install id w := by
  rcases processConfigMap_shape env st cm with ⟨_, h1⟩ | ⟨_, _, ⟨h1, h2, _⟩ |
    ⟨v, ok, hn, _, h1, h2⟩ | ⟨old, v, ok, _, _, _, h1, h2⟩⟩
  · rw [h1]; exact ⟨h, fun e he => Or.inl he⟩
  · rw [h1, h2]; exact ⟨h, fun e he => Or.inl he⟩
  · have hne : cm.Name ≠ id := fun e => h (e ▸ hn)
    rw [h1, h2, GoMap.get?_set_ne _ _ hne]
    refine ⟨h, fun e he => ?_⟩
    rcases List.mem_append.1 he with he | he
    · exact Or.inl he
    · rw [List.mem_singleton] at he
      refine Or.inr (fun w hw => ?_)
      rw [he] at hw
      injection hw with hw1 _
      exact hne hw1
  · rw [h1, h2]
    constructor
    · cases ok
      · exact h
      · by_cases hn : cm.Name = id
        · rw [if_pos rfl, hn, GoMap.get?_set_self]; simp
        · rw [if_pos rfl, GoMap.get?_set_ne _ _ hn]; exact h
    · intro e he
      rcases List.mem_append.1 he with he | he
      · exact Or.inl he
      · rw [List.mem_singleton] at he
        refine Or.inr (fun w hw => ?_)
        rw [he] at hw
        cases hw

theorem installLoop_tracked {V B : Type} (env : Env V B) (items : List ConfigMap)
    (id : String) (st : State V B) (h : st.handledConfigMaps.get? id ≠ none) :
    (installLoop env st items).handledConfigMaps.get? id ≠ none ∧
    ∀ e ∈ (installLoop env st items).trace, e ∈ st.trace ∨ ∀ w, e.call ≠ Call.install id w := by
  induction items generalizing st with
  | nil => exact ⟨h, fun e he => Or.inl he⟩
  | cons c t ih =>
    rw [installLoop_cons]
    obtain ⟨s1, s2⟩ := processConfigMap_tracked env st c id h
    obtain ⟨t1, t2⟩ := ih (processConfigMap env st c) s1
    refine ⟨t1, fun e he => ?_⟩
    rcases t2 e he with h3 | h3
    · exact s2 e h3
    · exact Or.inr h3

/-- The second loop adds uninstall calls only. -/
theorem uninstallFold_new {V B : Type} (env : Env V B) (names : List String) (st : State V B) :
    ∀ e ∈ (names.foldl (uninstallStale env) st).trace,
      e ∈ st.trace ∨ ∃ n, e.call = Call.uninstall n := by
  induction names generalizing st with
  | nil => exact fun e he => Or.inl he
  | cons n t ih =>
    rw [List.foldl_cons]
    intro e he
    rcases ih (uninstallStale env st n) e he with h | h
    · rcases uninstallStale_shape env st n with ⟨_, h1⟩ | ⟨_, _, ok, h1, _⟩
      · rw [h1] at h; exact Or.inl h
      · rw [h1] at h
        rcases List.mem_append.1 h with h | h
        · exact Or.inl h
        · rw [List.mem_singleton] at h
          exact Or.inr ⟨n, by rw [h]⟩
    · exact Or.inr h

/-- A tick issues no install call for a release that is tracked when it starts. -/
theorem reconcile_no_install {V B : Type} (env : Env V B) (ro : RangeOrder)
    (items : List ConfigMap) (handled : GoMap) (b : B) (id : String)
    (h : handled.get? id ≠ none) :
    ∀ e ∈ (reconcile env ro items handled b).trace, ∀ w, e.call ≠ Call.install id w := by
  intro e he w hw
  rcases uninstallFold_new env _ _ e he with h1 | ⟨n, h1⟩
  · rcases (installLoop_tracked env items id (⟨handled, [], b, []⟩ : State V B) h).2 e h1 with
      h2 | h2
    · cases h2
    · exact h2 w hw
  · rw [hw] at h1; cases h1

/-- While no upgrade of `id` with values `v` has been issued, the entry of `id` differs
from the payload `Q` that decodes to `v`: a step keeps that alternative. -/
theorem processConfigMap_pending {V B : Type} (env : Env V B) (st : State V B)
    (cm : ConfigMap) (id Q : String) (v : V) (hp : env.unmarshal Q = some v)
    (h : (∃ ok, Event.mk (Call.upgrade id v) ok ∈ st.trace) ∨
      (∃ x, st.handledConfigMaps.get? id = some x ∧ x ≠ Q)) :
    (∃ ok, Event.mk (Call.upgrade id v) ok ∈ (processConfigMap env st cm).trace) ∨
      (∃ x, (processConfigMap env st cm).handledConfigMaps.get? id = some x ∧ x ≠ Q) := by
  rcases h with ⟨ok, h⟩ | ⟨x, hx, hxq⟩
  · exact Or.inl ⟨ok, processConfigMap_trace_mono env st cm _ h⟩
  · rcases processConfigMap_shape env st cm with ⟨_, h1⟩ | ⟨_, _, ⟨_, h2, _⟩ |
      ⟨w, ok, hn, _, _, h2⟩ | ⟨old, w, ok, ho, _, hw, h1, h2⟩⟩
    · rw [h1]; exact Or.inr ⟨x, hx, hxq⟩
    · rw [h2]; exact Or.inr ⟨x, hx, hxq⟩
    · have hne : cm.Name ≠ id := fun e => by rw [e, hx] at hn; cases hn
      rw [h2, GoMap.get?_set_ne _ _ hne]
      exact Or.inr ⟨x, hx, hxq⟩
    · cases ok with
      | false => rw [h2]; exact Or.inr ⟨x, hx, hxq⟩
      | true =>
        by_cases hn : cm.Name = id
        · by_cases hq : valuesYaml cm = Q
          · have hwv : w = v := by
              rw [hq, hp] at hw
              exact (Option.some.inj hw).symm
            refine Or.inl ⟨true, ?_⟩
            rw [h1, hn, hwv]
            exact List.mem_append_right _ (List.mem_singleton.2 rfl)
          · rw [h2, if_pos rfl, hn, GoMap.get?_set_self]
            exact Or.inr ⟨valuesYaml cm, rfl, hq⟩
        · rw [h2, if_pos rfl, GoMap.get?_set_ne _ _ hn]
          exact Or.inr ⟨x, hx, hxq⟩

/-- The step for a triggering object whose payload decodes to `v`, taken while the entry
of its release differs from the payload, issues the upgrade. -/
theorem processConfigMap_pending_done {V B : Type} (env : Env V B) (st : State V B)
    (cm : ConfigMap) (v : V) (ht : isTrigger cm = true)
    (hp : env.unmarshal (valuesYaml cm) = some v)
    (h : (∃ ok, Event.mk (Call.upgrade cm.Name v) ok ∈ st.trace) ∨
      (∃ x, st.handledConfigMaps.get? cm.Name = some x ∧ x ≠ valuesYaml cm)) :
    ∃ ok, Event.mk (Call.upgrade cm.Name v) ok ∈ (processConfigMap env st cm).trace := by
  rcases h with ⟨ok, h⟩ | ⟨x, hx, hxq⟩
  · exact ⟨ok, processConfigMap_trace_mono env st cm _ h⟩
  · obtain ⟨ok, h1, _⟩ := processConfigMap_upgrade env st cm x v ht hx hxq hp
    exact ⟨ok, by rw [h1]; exact List.mem_append_right _ (List.mem_singleton.2 rfl)⟩

/-- A listing with a triggering object for `id` whose payload decodes to `v` and differs
from the entry of `id` makes the first loop issue `upgrade id v`, also when names repeat. -/
theorem installLoop_upgrade_issued {V B : Type} (env : Env V B) (items : List ConfigMap)
    (cm : ConfigMap) (v : V) (hm : cm ∈ items) (ht : isTrigger cm = true)
    (hp : env.unmarshal (valuesYaml cm) = some v) (st : State V B)
    (h : (∃ ok, Event.mk (Call.upgrade cm.Name v) ok ∈ st.trace) ∨
      (∃ x, st.handledConfigMaps.get? cm.Name = some x ∧ x ≠ valuesYaml cm)) :
    ∃ ok, Event.mk (Call.upgrade cm.Name v) ok ∈ (installLoop env st items).trace := by
  induction items generalizing st with
  | nil => simp at hm
  | cons c t ih =>
    rw [installLoop_cons]
    rcases List.mem_cons.1 hm with hc | hc
    · subst hc
      obtain ⟨ok, hok⟩ := processConfigMap_pending_done env st cm v ht hp h
      exact ⟨ok, installLoop_trace_mono env t _ _ hok⟩
    · exact ih hc _ (processConfigMap_pending env st c cm.Name (valuesYaml cm) v hp h)

/-- A tick that starts with an entry for `id` other than the payload `Q` listed for `id`,
where `Q` decodes to `v`, issues `upgrade id v`. -/
theorem reconcile_upgrade_issued {V B : Type} (env : Env V B) (ro : RangeOrder)
    (items : List ConfigMap) (handled : GoMap) (b : B) (id x Q : String) (v : V)
    (he : handled.get? id = some x) (hne : x ≠ Q) (hdes : Desired items id Q)
    (hp : env.unmarshal Q = some v) :
    ∃ ok, Event.mk (Call.upgrade id v) ok ∈ (reconcile env ro items handled b).trace := by
  obtain ⟨cm, hm, ht, rfl, rfl⟩ := hdes
  obtain ⟨ok, hok⟩ := installLoop_upgrade_issued env items cm v hm ht hp
    (⟨handled, [], b, []⟩ : State V B) (Or.inr ⟨x, he, hne⟩)
  exact ⟨ok, reconcile_trace_mono env ro items handled b _ hok⟩

/-- If every upgrade call issued for `id` fails, the first loop leaves its entry alone. -/
theorem installLoop_failed_upgrades {V B : Type} (env : Env V B) (items : List ConfigMap)
    (id P : String) (st : State V B) (he : st.handledConfigMaps.get? id = some P)
    (hf : ∀ e ∈ (installLoop env st items).trace,
      (∃ w, e.call = Call.upgrade id w) → e.ok = false) :
    (installLoop env st items).handledConfigMaps.get? id = some P := by
  induction items generalizing st with
  | nil => exact he
  | cons c t ih =>
    rw [installLoop_cons] at hf ⊢
    refine ih _ ?_ hf
    rcases processConfigMap_shape env st c with ⟨_, h1⟩ | ⟨_, _, ⟨_, h2, _⟩ |
      ⟨w, ok, hn, _, _, h2⟩ | ⟨old, w, ok, ho, _, hw, h1, h2⟩⟩
    · rw [h1]; exact he
    · rw [h2]; exact he
    · have hne : c.Name ≠ id := fun e => by rw [e, he] at hn; cases hn
      rw [h2, GoMap.get?_set_ne _ _ hne]
      exact he
    · by_cases hn : c.Name = id
      · have hmem : Event.mk (Call.upgrade c.Name w) ok ∈
            (installLoop env (processConfigMap env st c) t).trace :=
          installLoop_trace_mono env t _ _
            (by rw [h1]; exact List.mem_append_right _ (List.mem_singleton.2 rfl))
        have hok : ok = false := hf _ hmem ⟨w, by rw [hn]⟩
        rw [h2, hok]
        exact he
      · cases ok
        · rw [h2]; exact he
        · rw [h2, if_pos rfl, GoMap.get?_set_ne _ _ hn]; exact he

/-- With distinct triggering names, a failed install of an untracked release leaves the
empty string as its entry. -/
theorem reconcile_failed_install {V B : Type} (env : Env V B) (ro : RangeOrder)
    (items : List ConfigMap) (handled : GoMap) (b : B) (id P : String) (v : V)
    (hd : DistinctTriggers items) (he : handled.get? id = none) (hdes : Desired items id P)
    (hfail : Event.mk (Call.install id v) false ∈ (reconcile env ro items handled b).trace) :
    (reconcile env ro items handled b).handledConfigMaps.get? id = some "" := by
  obtain ⟨cm, hm, ht, rfl, rfl⟩ := hdes
  have hev : Event.mk (Call.install cm.Name v) false ∈
      eventsFor cm.Name (reconcile env ro items handled b).trace := mem_eventsFor hfail rfl
  rcases reconcile_desired_cases env ro items handled b cm hd hm ht with
    ⟨_, w, ok, _, h1, h2⟩ | ⟨old, _, _, ho, _⟩ | ⟨ho, _⟩ | ⟨_, _, h1, _⟩
  · rw [h1, List.mem_singleton] at hev
    have hok : ok = false := by
      injection hev with _ h
      exact h.symm
    rw [h2, hok]
    rfl
  · rw [he] at ho; cases ho
  · rw [he] at ho; cases ho
  · rw [h1] at hev; cases hev

/-! ## The two phases of an iteration -/

/-- The first loop issues install and upgrade calls only, and only for seen releases. -/
theorem processConfigMap_marks {V B : Type} (env : Env V B) (st : State V B) (cm : ConfigMap)
    (h : ∀ e ∈ st.trace, e.call.isUninstall = false ∧
      st.seenConfigMaps.get? e.call.name ≠ none) :
    ∀ e ∈ (processConfigMap env st cm).trace, e.call.isUninstall = false ∧
      (processConfigMap env st cm).seenConfigMaps.get? e.call.name ≠ none := by
  have hold : ∀ e ∈ st.trace, e.call.isUninstall = false ∧
      (processConfigMap env st cm).seenConfigMaps.get? e.call.name ≠ none :=
    fun e he => ⟨(h e he).1, processConfigMap_seen_mono env st cm _ (h e he).2⟩
  rcases processConfigMap_shape env st cm with ⟨_, h1⟩ | ⟨ht, _, ⟨h1, _⟩ |
    ⟨v, ok, _, _, h1, _⟩ | ⟨old, v, ok, _, _, _, h1, _⟩⟩
  · rw [h1]; exact h
  · rw [h1]; exact hold
  · rw [h1]
    intro e he
    rcases List.mem_append.1 he with he | he
    · exact hold e he
    · rw [List.mem_singleton] at he
      rw [he]
      exact ⟨rfl, by
        show (processConfigMap env st cm).seenConfigMaps.get? cm.Name ≠ none
        rw [processConfigMap_seen env st cm ht]; simp⟩
  · rw [h1]
    intro e he
    rcases List.mem_append.1 he with he | he
    · exact hold e he
    · rw [List.mem_singleton] at he
      rw [he]
      exact ⟨rfl, by
        show (processConfigMap env st cm).seenConfigMaps.get? cm.Name ≠ none
        rw [processConfigMap_seen env st cm ht]; simp⟩

theorem installLoop_marks {V B : Type} (env : Env V B) (items : List ConfigMap)
    (st : State V B)
    (h : ∀ e ∈ st.trace, e.call.isUninstall = false ∧
      st.seenConfigMaps.get? e.call.name ≠ none) :
    ∀ e ∈ (installLoop env st items).trace, e.call.isUninstall = false ∧
      (installLoop env st items).seenConfigMaps.get? e.call.name ≠ none := by
  induction items generalizing st with
  | nil => exact h
  | cons c t ih =>
    rw [installLoop_cons]
    exact ih _ (processConfigMap_marks env st c h)

/-- An entry that the first loop creates belongs to a seen release. -/
theorem installLoop_created {V B : Type} (env : Env V B) (items : List ConfigMap)
    (id : String) (st : State V B)
    (h : (installLoop env st items).handledConfigMaps.get? id ≠ none) :
    st.handledConfigMaps.get? id ≠ none ∨
      (installLoop env st items).seenConfigMaps.get? id ≠ none := by
  induction items generalizing st with
  | nil => exact Or.inl h
  | cons c t ih =>
    rw [installLoop_cons] at h ⊢
    rcases ih _ h with h1 | h1
    · by_cases hn : isTrigger c = true ∧ c.Name = id
      · refine Or.inr (installLoop_seen_mono env t id _ ?_)
        rw [← hn.2, processConfigMap_seen env st c hn.1]; simp
      · have hf := processConfigMap_frame env st c id (fun ht hc => hn ⟨ht, hc⟩)
        rw [hf.1] at h1
        exact Or.inl h1
    · exact Or.inr h1

/-- In the second loop, uninstall calls are for unseen releases, all others for seen
ones. -/
theorem uninstallFold_marks {V B : Type} (env : Env V B) (names : List String)
    (st : State V B)
    (h : ∀ e ∈ st.trace, (e.call.isUninstall = true ↔
      st.seenConfigMaps.get? e.call.name = none)) :
    ∀ e ∈ (names.foldl (uninstallStale env) st).trace, (e.call.isUninstall = true ↔
      st.seenConfigMaps.get? e.call.name = none) := by
  induction names generalizing st with
  | nil => exact h
  | cons n t ih =>
    rw [List.foldl_cons]
    have hs := uninstallStale_seen env st n
    have hstep : ∀ e ∈ (uninstallStale env st n).trace, (e.call.isUninstall = true ↔
        (uninstallStale env st n).seenConfigMaps.get? e.call.name = none) := by
      rw [hs]
      rcases uninstallStale_shape env st n with ⟨_, h1⟩ | ⟨hn, _, ok, h1, _⟩
      · rw [h1]; exact h
      · rw [h1]
        intro e he
        rcases List.mem_append.1 he with he | he
        · exact h e he
        · rw [List.mem_singleton] at he
          rw [he]
          exact ⟨fun _ => hn, fun _ => rfl⟩
    have := ih (uninstallStale env st n) hstep
    rw [hs] at this
    exact this

/-- In the trace of an iteration, the uninstall calls are those for releases that the
first loop has not seen. -/
theorem reconcile_marks {V B : Type} (env : Env V B) (ro : RangeOrder)
    (items : List ConfigMap) (handled : GoMap) (b : B) :
    ∀ e ∈ (reconcile env ro items handled b).trace, (e.call.isUninstall = true ↔
      (installLoop env ⟨handled, [], b, []⟩ items).seenConfigMaps.get? e.call.name = none) := by
  have h1 := installLoop_marks env items (⟨handled, [], b, []⟩ : State V B)
    (fun e he => by cases he)
  refine uninstallFold_marks env _ _ (fun e he => ?_)
  obtain ⟨q1, q2⟩ := h1 e he
  rw [q1]
  exact ⟨fun hc => Bool.noConfusion hc, fun hc => absurd hc q2⟩

/-- With distinct triggering names, the calls of a tick for a release are the call that
`plannedCall` gives from the entry and the payload of the release. -/
theorem reconcile_planned {V B : Type} (env : Env V B) (ro : RangeOrder)
    (items : List ConfigMap) (handled : GoMap) (b : B) (id : String)
    (hd : DistinctTriggers items) :
    (∀ Q, Desired items id Q →
      (eventsFor id (reconcile env ro items handled b).trace).map Event.call =
        (plannedCall env.unmarshal id (handled.get? id) (some Q)).toList) ∧
    (Undesired items id →
      (eventsFor id (reconcile env ro items handled b).trace).map Event.call =
        (plannedCall env.unmarshal id (handled.get? id) none).toList) := by
  constructor
  · rintro Q ⟨cm, hm, ht, rfl, rfl⟩
    rcases reconcile_desired_cases env ro items handled b cm hd hm ht with
      ⟨he, w, ok, hw, h1, _⟩ | ⟨old, w, ok, he, hne, hw, h1, _⟩ | ⟨he, h1, _⟩ | ⟨he, hw, h1, _⟩
    · rw [h1, he]; simp [plannedCall, hw]
    · rw [h1, he]; simp [plannedCall, hw, hne]
    · rw [h1, he]; simp [plannedCall]
    · rw [h1]
      cases hg : handled.get? cm.Name with
      | none => simp [plannedCall, hw]
      | some x =>
        have hx : x ≠ valuesYaml cm := fun e => he (by rw [hg, e])
        simp [plannedCall, hw, hx]
  · intro hu
    cases hg : handled.get? id with
    | none =>
      rw [(reconcile_absent env ro items handled b id hu hg).1]
      rfl
    | some old =>
      obtain ⟨ok, h1, _⟩ := reconcile_stale env ro items handled b id old hu hg
      rw [h1]
      rfl

/-! ## The trigger marker -/

/-- The runes that `toLowerRune` sends to a lower-case letter other than `i` and `k`: the
letter and its upper case. -/
theorem toLowerRune_eq_iff (c t : Char) (ht : 97 ≤ t.toNat ∧ t.toNat ≤ 122) (hi : t ≠ 'i')
    (hk : t ≠ 'k') : toLowerRune c = t ↔ (c = t ∨ c = Char.ofNat (t.toNat - 32)) := by
  have hc : Char.ofNat c.toNat = c := Char.ofNat_toNat c
  have htt : Char.ofNat t.toNat = t := Char.ofNat_toNat t
  obtain ⟨hta, htb⟩ := ht
  unfold toLowerRune
  split_ifs with h1 h2 h3
  · obtain ⟨h1a, h1b⟩ := h1
    generalize c.toNat = n at *
    generalize t.toNat = m at *
    subst hc
    subst htt
    interval_cases n <;> interval_cases m <;> decide
  · constructor
    · intro h; exact absurd h.symm hi
    · rintro (h | h)
      · subst h; omega
      · exfalso
        generalize t.toNat = m at *
        subst h
        interval_cases m <;> revert h2 <;> decide
  · constructor
    · intro h; exact absurd h.symm hk
    · rintro (h | h)
      · subst h; omega
      · exfalso
        generalize t.toNat = m at *
        subst h
        interval_cases m <;> revert h3 <;> decide
  · constructor
    · exact Or.inl
    · rintro (h | h)
      · exact h
      · exfalso
        generalize t.toNat = m at *
        subst h
        interval_cases m <;> revert h1 <;> decide

/-- The strings whose lower case is `true` are the sixteen spellings of `true`. -/
theorem stringsToLower_eq_true (s : String) :
    stringsToLower s = "true" ↔ s ∈ trueSpellings := by
  constructor
  · intro h
    obtain ⟨l⟩ := s
    have hl : l.map toLowerRune = ['t', 'r', 'u', 'e'] := by
      have := congrArg String.data h
      exact this
    rcases l with _ | ⟨a, _ | ⟨b, _ | ⟨c, _ | ⟨d, _ | ⟨x, t⟩⟩⟩⟩⟩
    · cases hl
    · simp at hl
    · simp at hl
    · simp at hl
    · simp only [List.map_cons, List.map_nil, List.cons.injEq, and_true] at hl
      obtain ⟨ha, hb, hc, hd⟩ := hl
      rw [toLowerRune_eq_iff _ _ (by decide) (by decide) (by decide)] at ha hb hc hd
      rcases ha with rfl | rfl <;> rcases hb with rfl | rfl <;> rcases hc with rfl | rfl <;>
        rcases hd with rfl | rfl <;> decide
    · simp at hl
  · intro h
    simp only [trueSpellings, List.mem_cons, List.mem_singleton, List.not_mem_nil,
      or_false] at h
    rcases h with h | h | h | h | h | h | h | h | h | h | h | h | h | h | h | h <;>
      rw [h] <;> decide

/-- The releases seen by the first loop are those named by a triggering object. -/
theorem installLoop_seen_iff {V B : Type} (env : Env V B) (items : List ConfigMap)
    (handled : GoMap) (b : B) (id : String) :
    (installLoop env ⟨handled, [], b, []⟩ items).seenConfigMaps.get? id ≠ none ↔
      ∃ cm ∈ items, isTrigger cm = true ∧ cm.Name = id := by
  constructor
  · intro h
    rcases desired_or_undesired items id with hdes | hu
    · exact hdes
    · exact absurd (installLoop_frame env items id hu (⟨handled, [], b, []⟩ : State V B)).2.1 h
  · rintro ⟨cm, hm, ht, rfl⟩
    exact installLoop_seen env items cm hm ht _

/-! ## Runs of the loop -/

theorem runTick_panicked {V B : Type} (env : Env V B) (r : Run V B)
    (t : RangeOrder × Except String (List ConfigMap)) (h : r.panic ≠ none) :
    runTick env r t = r := by
  unfold runTick
  cases hp : r.panic with
  | none => exact absurd hp h
  | some e => rfl

theorem runTicks_panicked {V B : Type} (env : Env V B)
    (ticks : List (RangeOrder × Except String (List ConfigMap))) (r : Run V B)
    (h : r.panic ≠ none) : ticks.foldl (runTick env) r = r := by
  induction ticks with
  | nil => rfl
  | cons t rest ih => rw [List.foldl_cons, runTick_panicked env r t h]; exact ih

theorem runTick_error {V B : Type} (env : Env V B) (r : Run V B) (ro : RangeOrder)
    (err : String) (h : r.panic = none) :
    runTick env r (ro, Except.error err) = { r with panic := some err } := by
  unfold runTick
  rw [h]

theorem runTick_ok {V B : Type} (env : Env V B) (r : Run V B) (ro : RangeOrder)
    (items : List ConfigMap) (h : r.panic = none) :
    runTick env r (ro, Except.ok items) =
      { handledConfigMaps := (reconcile env ro items r.handledConfigMaps r.helm).handledConfigMaps,
        helm := (reconcile env ro items r.handledConfigMaps r.helm).helm,
        history := r.history ++
          [(items, (reconcile env ro items r.handledConfigMaps r.helm).trace)],
        panic := none } := by
  unfold runTick
  rw [h]

/-- An iteration of a run that has not panicked is `tick`: its panic is the panic of the
run, and its state gives the store, the backend and the calls of the iteration. -/
theorem runTick_eq_tick {V B : Type} (env : Env V B) (r : Run V B) (ro : RangeOrder)
    (listed : Except String (List ConfigMap)) (h : r.panic = none) :
    (∀ err, tick env ro listed r.handledConfigMaps r.helm = Except.error err →
      runTick env r (ro, listed) = { r with panic := some err }) ∧
    (∀ st, tick env ro listed r.handledConfigMaps r.helm = Except.ok st →
      (runTick env r (ro, listed)).handledConfigMaps = st.handledConfigMaps ∧
      (runTick env r (ro, listed)).helm = st.helm ∧
      (runTick env r (ro, listed)).history.map Prod.snd =
        r.history.map Prod.snd ++ [st.trace] ∧
      (runTick env r (ro, listed)).panic = none) := by
  cases listed with
  | error e =>
    refine ⟨fun err he => ?_, fun st he => Except.noConfusion he⟩
    have : e = err := by
      simp only [tick] at he
      exact Except.error.inj he
    rw [runTick_error env r ro e h, this]
  | ok items =>
    refine ⟨fun err he => Except.noConfusion he, fun st he => ?_⟩
    have : reconcile env ro items r.handledConfigMaps r.helm = st := by
      simp only [tick] at he
      exact Except.ok.inj he
    rw [runTick_ok env r ro items h, this]
    simp

theorem mainLoop_append {V B : Type} (env : Env V B)
    (pre rest : List (RangeOrder × Except String (List ConfigMap))) (handled : GoMap) (b : B) :
    mainLoop env (pre ++ rest) handled b = rest.foldl (runTick env) (mainLoop env pre handled b) := by
  unfold mainLoop
  rw [List.foldl_append]

theorem RangeOrder.order_singleton (ro : RangeOrder) (x : String) : ro.order [x] = [x] :=
  List.perm_singleton.1 (ro.perm [x])

theorem RangeOrder.order_nil (ro : RangeOrder) : ro.order [] = [] :=
  List.perm_nil.1 (ro.perm [])

/-- A tick that sees a single triggering object for the first time, when the install
succeeds. -/
theorem reconcile_single_install {V B : Type} (env : Env V B) (ro : RangeOrder) (b : B)
    (n P : String) (v : V) (hp : env.unmarshal P = some v)
    (hok : (env.helm.install b n v).2 = true) :
    reconcile env ro [triggerCM n P] [] b =
      ⟨[(n, P)], [(n, n)], (env.helm.install b n v).1, [Event.mk (Call.install n v) true]⟩ := by
  have ht : isTrigger (triggerCM n P) = true := rfl
  have hn : (triggerCM n P).Name = n := rfl
  have hy : valuesYaml (triggerCM n P) = P := by simp [valuesYaml, triggerCM, GoMap.get, GoMap.get?]
  have h1 : installLoop env ⟨[], [], b, []⟩ [triggerCM n P] =
      ⟨[(n, P)], [(n, n)], (env.helm.install b n v).1, [Event.mk (Call.install n v) true]⟩ := by
    simp [installLoop, processConfigMap, ht, hy, hp, hok, GoMap.has, GoMap.get?, GoMap.set,
      GoMap.delete, hn]
  unfold reconcile uninstallLoop
  rw [h1]
  simp [GoMap.keys, RangeOrder.order_singleton, uninstallStale, GoMap.has, GoMap.get?]

/-- A tick that sees a single triggering object whose payload is its entry. -/
theorem reconcile_single_same {V B : Type} (env : Env V B) (ro : RangeOrder) (b : B)
    (n P : String) :
    reconcile env ro [triggerCM n P] [(n, P)] b = ⟨[(n, P)], [(n, n)], b, []⟩ := by
  have ht : isTrigger (triggerCM n P) = true := rfl
  have hn : (triggerCM n P).Name = n := rfl
  have hy : valuesYaml (triggerCM n P) = P := by simp [valuesYaml, triggerCM, GoMap.get, GoMap.get?]
  have h1 : installLoop env ⟨[(n, P)], [], b, []⟩ [triggerCM n P] =
      ⟨[(n, P)], [(n, n)], b, []⟩ := by
    simp [installLoop, processConfigMap, ht, hy, GoMap.has, GoMap.get, GoMap.get?, GoMap.set,
      GoMap.delete, hn]
  unfold reconcile uninstallLoop
  rw [h1]
  simp [GoMap.keys, RangeOrder.order_singleton, uninstallStale, GoMap.has, GoMap.get?]

/-- A tick that sees a single triggering object whose payload differs from its entry, when
the upgrade succeeds. -/
theorem reconcile_single_upgrade {V B : Type} (env : Env V B) (ro : RangeOrder) (b : B)
    (n P Q : String) (v : V) (hne : P ≠ Q) (hp : env.unmarshal Q = some v)
    (hok : (env.helm.upgrade b n v).2 = true) :
    reconcile env ro [triggerCM n Q] [(n, P)] b =
      ⟨[(n, Q)], [(n, n)], (env.helm.upgrade b n v).1, [Event.mk (Call.upgrade n v) true]⟩ := by
  have ht : isTrigger (triggerCM n Q) = true := rfl
  have hn : (triggerCM n Q).Name = n := rfl
  have hy : valuesYaml (triggerCM n Q) = Q := by simp [valuesYaml, triggerCM, GoMap.get, GoMap.get?]
  have h1 : installLoop env ⟨[(n, P)], [], b, []⟩ [triggerCM n Q] =
      ⟨[(n, Q)], [(n, n)], (env.helm.upgrade b n v).1, [Event.mk (Call.upgrade n v) true]⟩ := by
    simp [installLoop, processConfigMap, ht, hy, hp, hok, hne, GoMap.has, GoMap.get, GoMap.get?,
      GoMap.set, GoMap.delete, hn]
  unfold reconcile uninstallLoop
  rw [h1]
  simp [GoMap.keys, RangeOrder.order_singleton, uninstallStale, GoMap.has, GoMap.get?]

/-- A tick with an empty listing and a single tracked release, when the uninstall
succeeds. -/
theorem reconcile_single_uninstall {V B : Type} (env : Env V B) (ro : RangeOrder) (b : B)
    (n P : String) (hok : (env.helm.uninstall b n).2 = true) :
    reconcile env ro [] [(n, P)] b =
      ⟨[], [], (env.helm.uninstall b n).1, [Event.mk (Call.uninstall n) true]⟩ := by
  unfold reconcile uninstallLoop
  simp [installLoop, GoMap.keys, RangeOrder.order_singleton, uninstallStale, GoMap.has,
    GoMap.get?, GoMap.delete, hok]

/-! ## Facts for whole stores and whole listings -/

theorem GoMap.eq_nil_of_get? (m : GoMap) (h : ∀ k, m.get? k = none) : m = [] := by
  cases m with
  | nil => rfl
  | cons e t =>
    obtain ⟨k, v⟩ := e
    have := h k
    simp [GoMap.get?] at this

theorem mem_of_mem_eventsFor {V : Type} {id : String} {e : Event V} {trace : List (Event V)}
    (h : e ∈ eventsFor id trace) : e ∈ trace :=
  (List.mem_filter.1 h).1

theorem name_of_mem_eventsFor {V : Type} {id : String} {e : Event V} {trace : List (Event V)}
    (h : e ∈ eventsFor id trace) : e.call.name = id := by
  have := (List.mem_filter.1 h).2
  simpa using this

/-- With distinct triggering names a tick issues at most one call for a release. -/
theorem reconcile_at_most_one {V B : Type} (env : Env V B) (ro : RangeOrder)
    (items : List ConfigMap) (handled : GoMap) (b : B) (id : String)
    (hd : DistinctTriggers items) :
    (eventsFor id (reconcile env ro items handled b).trace).length ≤ 1 := by
  have hp := reconcile_planned env ro items handled b id hd
  have hlen : ∀ o : Option (Call V), o.toList.length ≤ 1 := by
    intro o; cases o <;> simp
  rcases desired_or_undesired items id with ⟨cm, hm, ht, hn⟩ | hu
  · have := hp.1 (valuesYaml cm) ⟨cm, hm, ht, hn, rfl⟩
    have h2 := congrArg List.length this
    rw [List.length_map] at h2
    rw [h2]; exact hlen _
  · have h2 := congrArg List.length (hp.2 hu)
    rw [List.length_map] at h2
    rw [h2]; exact hlen _

/-- A triggering object whose payload decodes has an entry once the first loop is over,
also when names repeat. -/
theorem installLoop_entry_created {V B : Type} (env : Env V B) (items : List ConfigMap)
    (cm : ConfigMap) (v : V) (hm : cm ∈ items) (ht : isTrigger cm = true)
    (hp : env.unmarshal (valuesYaml cm) = some v) (st : State V B) :
    (installLoop env st items).handledConfigMaps.get? cm.Name ≠ none := by
  induction items generalizing st with
  | nil => simp at hm
  | cons c t ih =>
    rw [installLoop_cons]
    rcases List.mem_cons.1 hm with hc | hc
    · subst hc
      refine (installLoop_tracked env t cm.Name _ ?_).1
      rcases processConfigMap_shape env st cm with ⟨hf, _⟩ | ⟨_, _, ⟨_, h2, h3 | h3⟩ |
        ⟨w, ok, _, _, _, h2⟩ | ⟨old, w, ok, he, _, _, _, h2⟩⟩
      · rw [ht] at hf; cases hf
      · rw [h2, h3]; simp
      · rw [hp] at h3; cases h3
      · rw [h2, GoMap.get?_set_self]; simp
      · rw [h2]
        cases ok
        · rw [if_neg (by simp), he]; simp
        · rw [if_pos rfl, GoMap.get?_set_self]; simp
    · exact ih hc _

/-- Objects that are not triggering may be dropped from a listing: the first loop does the
same. -/
theorem installLoop_filter {V B : Type} (env : Env V B) (items : List ConfigMap)
    (p : ConfigMap → Bool) (h : ∀ cm ∈ items, p cm = false → isTrigger cm = false)
    (st : State V B) :
    installLoop env st (items.filter p) = installLoop env st items := by
  induction items generalizing st with
  | nil => rfl
  | cons c t ih =>
    have ht := ih (fun cm hcm => h cm (List.mem_cons_of_mem c hcm))
    cases hpc : p c with
    | true =>
      rw [List.filter_cons_of_pos hpc, installLoop_cons, installLoop_cons]
      exact ht _
    | false =>
      rw [List.filter_cons_of_neg (by simp [hpc]), installLoop_cons,
        processConfigMap_skip env st c (h c (List.mem_cons_self c t) hpc)]
      exact ht _

/-- An entry that is there after a tick belongs to a release of the Desired Set or to a
release whose uninstall failed in the tick. -/
theorem reconcile_kept_entry {V B : Type} (env : Env V B) (ro : RangeOrder)
    (items : List ConfigMap) (handled : GoMap) (b : B) (id : String)
    (h : (reconcile env ro items handled b).handledConfigMaps.get? id ≠ none) :
    (∃ cm ∈ items, isTrigger cm = true ∧ cm.Name = id) ∨
      Event.mk (Call.uninstall id) false ∈ (reconcile env ro items handled b).trace := by
  rcases desired_or_undesired items id with hdes | hu
  · exact Or.inl hdes
  · refine Or.inr ?_
    cases he : handled.get? id with
    | none => exact absurd (reconcile_absent env ro items handled b id hu he).2 h
    | some old =>
      obtain ⟨ok, h1, h2⟩ := reconcile_stale env ro items handled b id old hu he
      cases ok with
      | true => rw [h2] at h; simp at h
      | false =>
        have hin : Event.mk (Call.uninstall id) false ∈
            eventsFor id (reconcile env ro items handled b).trace := by
          rw [h1]
          exact List.mem_singleton.2 rfl
        exact mem_of_mem_eventsFor hin

/-- With distinct triggering names, the entry of a release after a tick is the one that
`entryAfter` gives from its entry before, its payload and its events in the tick. -/
theorem reconcile_entry_after {V B : Type} (env : Env V B) (ro : RangeOrder)
    (items : List ConfigMap) (handled : GoMap) (b : B) (id : String)
    (hd : DistinctTriggers items) :
    (∀ Q, Desired items id Q →
      (reconcile env ro items handled b).handledConfigMaps.get? id =
        entryAfter (handled.get? id) (some Q)
          (eventsFor id (reconcile env ro items handled b).trace)) ∧
    (Undesired items id →
      (reconcile env ro items handled b).handledConfigMaps.get? id =
        entryAfter (handled.get? id) none
          (eventsFor id (reconcile env ro items handled b).trace)) := by
  constructor
  · rintro Q ⟨cm, hm, ht, rfl, rfl⟩
    rcases reconcile_desired_cases env ro items handled b cm hd hm ht with
      ⟨he, w, ok, _, h1, h2⟩ | ⟨old, w, ok, he, _, _, h1, h2⟩ | ⟨he, h1, h2⟩ | ⟨_, _, h1, h2⟩
    · rw [h1, h2]; cases ok <;> simp [entryAfter]
    · rw [h1, h2, he]; cases ok <;> simp [entryAfter]
    · rw [h1, h2, he]; rfl
    · rw [h1, h2]; rfl
  · intro hu
    cases hg : handled.get? id with
    | none =>
      obtain ⟨h1, h2⟩ := reconcile_absent env ro items handled b id hu hg
      rw [h1, h2]; rfl
    | some old =>
      obtain ⟨ok, h1, h2⟩ := reconcile_stale env ro items handled b id old hu hg
      rw [h1, h2]; cases ok <;> simp [entryAfter]

/-- The planned call depends on the decoder through the decoded payload only. -/
theorem plannedCall_congr {V : Type} (u1 u2 : String → Option V) (id : String)
    (entry payload : Option String) (h : ∀ p, payload = some p → u1 p = u2 p) :
    plannedCall u1 id entry payload = plannedCall u2 id entry payload := by
  cases payload with
  | none => cases entry <;> rfl
  | some p => cases entry <;> simp [plannedCall, h p rfl]

/-- Two lists of events with the same calls and the same outcomes are equal. -/
theorem events_ext {V : Type} (l1 l2 : List (Event V))
    (hc : l1.map Event.call = l2.map Event.call) (ho : l1.map Event.ok = l2.map Event.ok) :
    l1 = l2 := by
  induction l1 generalizing l2 with
  | nil =>
    cases l2 with
    | nil => rfl
    | cons y t => simp at hc
  | cons x t ih =>
    cases l2 with
    | nil => simp at hc
    | cons y u =>
      simp only [List.map_cons, List.cons.injEq] at hc ho
      obtain ⟨x1, x2⟩ := x
      obtain ⟨y1, y2⟩ := y
      simp only at hc ho
      rw [ih u hc.2 ho.2, hc.1, ho.1]

/-! ## Which releases have an entry -/

theorem installedSince_nil {V : Type} (id : String) : ¬ InstalledSince id ([] : List (Event V)) := by
  rintro ⟨pre, post, v, ok, h, _⟩
  cases pre <;> cases h

theorem installedSince_snoc_install {V : Type} (id : String) (tr : List (Event V)) (v : V)
    (ok : Bool) : InstalledSince id (tr ++ [Event.mk (Call.install id v) ok]) :=
  ⟨tr, [], v, ok, rfl, (fun e he => absurd he (List.not_mem_nil e)),
    (fun e he => absurd he (List.not_mem_nil e))⟩

theorem installedSince_snoc_uninstalled {V : Type} (id : String) (tr : List (Event V)) :
    ¬ InstalledSince id (tr ++ [Event.mk (Call.uninstall id) true]) := by
  rintro ⟨pre, post, v, ok, h, _, h2⟩
  rcases List.eq_nil_or_concat post with hp | ⟨post1, x, hp⟩
  · subst hp
    have := (List.append_inj' h rfl).2
    simp at this
  · subst hp
    rw [List.concat_eq_append, ← List.cons_append, ← List.append_assoc] at h
    have hx := (List.append_inj' h rfl).2
    simp only [List.cons.injEq, and_true] at hx
    refine h2 x (by simp) ?_
    rw [← hx]
    exact ⟨rfl, rfl⟩

theorem installedSince_snoc_other {V : Type} (id : String) (tr : List (Event V)) (e : Event V)
    (h1 : ∀ w, e.call ≠ Call.install id w)
    (h2 : ¬ (e.call = Call.uninstall id ∧ e.ok = true)) :
    InstalledSince id (tr ++ [e]) ↔ InstalledSince id tr := by
  constructor
  · rintro ⟨pre, post, v, ok, h, q1, q2⟩
    rcases List.eq_nil_or_concat post with hp | ⟨post1, x, hp⟩
    · subst hp
      have he := (List.append_inj' h rfl).2
      simp only [List.cons.injEq, and_true] at he
      exact absurd (by rw [he]) (h1 v)
    · subst hp
      rw [List.concat_eq_append, ← List.cons_append, ← List.append_assoc] at h
      have ht := (List.append_inj' h rfl).1
      refine ⟨pre, post1, v, ok, ht, fun y hy => q1 y ?_, fun y hy => q2 y ?_⟩ <;>
        simp [hy]
  · rintro ⟨pre, post, v, ok, h, q1, q2⟩
    refine ⟨pre, post ++ [e], v, ok, by rw [h]; simp, fun y hy => ?_, fun y hy => ?_⟩
    · rcases List.mem_append.1 hy with hy | hy
      · exact q1 y hy
      · rw [List.mem_singleton.1 hy]; exact h1
    · rcases List.mem_append.1 hy with hy | hy
      · exact q2 y hy
      · rw [List.mem_singleton.1 hy]; exact h2

/-- A step of the first loop keeps the entries in line with the calls: a release has an
entry exactly when it is installed as far as the calls issued up to now tell. -/
theorem processConfigMap_tracks {V B : Type} (env : Env V B) (prior : List (Event V))
    (st : State V B) (cm : ConfigMap)
    (h : ∀ id, st.handledConfigMaps.get? id ≠ none ↔ InstalledSince id (prior ++ st.trace)) :
    ∀ id, (processConfigMap env st cm).handledConfigMaps.get? id ≠ none ↔
      InstalledSince id (prior ++ (processConfigMap env st cm).trace) := by
  intro id
  rcases processConfigMap_shape env st cm with ⟨_, h1⟩ | ⟨_, _, ⟨h1, h2, _⟩ |
    ⟨v, ok, hn, _, h1, h2⟩ | ⟨old, v, ok, he, _, _, h1, h2⟩⟩
  · rw [h1]; exact h id
  · rw [h1, h2]; exact h id
  · rw [h1, h2, ← List.append_assoc]
    by_cases hid : cm.Name = id
    · subst hid
      rw [GoMap.get?_set_self]
      exact ⟨fun _ => installedSince_snoc_install _ _ _ _, fun _ => by simp⟩
    · rw [GoMap.get?_set_ne _ _ hid, installedSince_snoc_other id _ _
        (fun w hw => by injection hw with hw1 _; exact hid hw1)
        (fun hw => by cases hw.1)]
      exact h id
  · rw [h1, h2, ← List.append_assoc, installedSince_snoc_other id _ _
      (fun w hw => by cases hw) (fun hw => by cases hw.1)]
    cases ok with
    | false => exact h id
    | true =>
      rw [if_pos rfl]
      by_cases hid : cm.Name = id
      · subst hid
        rw [GoMap.get?_set_self]
        exact ⟨fun _ => (h cm.Name).1 (by rw [he]; simp), fun _ => by simp⟩
      · rw [GoMap.get?_set_ne _ _ hid]
        exact h id

theorem installLoop_tracks {V B : Type} (env : Env V B) (prior : List (Event V))
    (items : List ConfigMap) (st : State V B)
    (h : ∀ id, st.handledConfigMaps.get? id ≠ none ↔ InstalledSince id (prior ++ st.trace)) :
    ∀ id, (installLoop env st items).handledConfigMaps.get? id ≠ none ↔
      InstalledSince id (prior ++ (installLoop env st items).trace) := by
  induction items generalizing st with
  | nil => exact h
  | cons c t ih =>
    rw [installLoop_cons]
    exact ih _ (processConfigMap_tracks env prior st c h)

/-- A step of the second loop keeps the entries in line with the calls. -/
theorem uninstallStale_tracks {V B : Type} (env : Env V B) (prior : List (Event V))
    (st : State V B) (name : String)
    (h : ∀ id, st.handledConfigMaps.get? id ≠ none ↔ InstalledSince id (prior ++ st.trace)) :
    ∀ id, (uninstallStale env st name).handledConfigMaps.get? id ≠ none ↔
      InstalledSince id (prior ++ (uninstallStale env st name).trace) := by
  intro id
  rcases uninstallStale_shape env st name with ⟨_, h1⟩ | ⟨_, _, ok, h1, h2⟩
  · rw [h1]; exact h id
  · rw [h1, h2, ← List.append_assoc]
    by_cases hid : name = id
    · subst hid
      cases ok with
      | true =>
        rw [if_pos rfl, GoMap.get?_delete_self]
        exact ⟨fun hc => absurd rfl hc, fun hc => absurd hc (installedSince_snoc_uninstalled _ _)⟩
      | false =>
        rw [installedSince_snoc_other name _ _ (fun w hw => by cases hw)
          (fun hw => by cases hw.2)]
        exact h name
    · rw [installedSince_snoc_other id _ _ (fun w hw => by cases hw)
        (fun hw => by
          have := hw.1
          injection this with hq
          exact hid hq)]
      cases ok with
      | true => rw [if_pos rfl, GoMap.get?_delete_ne _ hid]; exact h id
      | false => exact h id

theorem uninstallFold_tracks {V B : Type} (env : Env V B) (prior : List (Event V))
    (names : List String) (st : State V B)
    (h : ∀ id, st.handledConfigMaps.get? id ≠ none ↔ InstalledSince id (prior ++ st.trace)) :
    ∀ id, (names.foldl (uninstallStale env) st).handledConfigMaps.get? id ≠ none ↔
      InstalledSince id (prior ++ (names.foldl (uninstallStale env) st).trace) := by
  induction names generalizing st with
  | nil => exact h
  | cons n t ih =>
    rw [List.foldl_cons]
    exact ih _ (uninstallStale_tracks env prior st n h)

/-- A tick keeps the entries in line with the calls issued since the start. -/
theorem reconcile_tracks {V B : Type} (env : Env V B) (ro : RangeOrder)
    (items : List ConfigMap) (handled : GoMap) (b : B) (prior : List (Event V))
    (h : ∀ id, handled.get? id ≠ none ↔ InstalledSince id prior) :
    ∀ id, (reconcile env ro items handled b).handledConfigMaps.get? id ≠ none ↔
      InstalledSince id (prior ++ (reconcile env ro items handled b).trace) := by
  unfold reconcile uninstallLoop
  refine uninstallFold_tracks env prior _ _ (installLoop_tracks env prior items _ ?_)
  intro id
  rw [List.append_nil]
  exact h id

theorem Run.trace_snoc {V B : Type} (r : Run V B) (items : List ConfigMap)
    (tr : List (Event V)) (h : GoMap) (b : B) (p : Option String) :
    (Run.mk h b (r.history ++ [(items, tr)]) p).trace = r.trace ++ tr := by
  simp [Run.trace]

/-- A run keeps the entries in line with its calls. -/
theorem runTicks_tracks {V B : Type} (env : Env V B)
    (ticks : List (RangeOrder × Except String (List ConfigMap))) (r : Run V B)
    (h : ∀ id, r.handledConfigMaps.get? id ≠ none ↔ InstalledSince id r.trace) :
    ∀ id, (ticks.foldl (runTick env) r).handledConfigMaps.get? id ≠ none ↔
      InstalledSince id (ticks.foldl (runTick env) r).trace := by
  induction ticks generalizing r with
  | nil => exact h
  | cons t rest ih =>
    rw [List.foldl_cons]
    apply ih
    obtain ⟨ro, listed⟩ := t
    cases hp : r.panic with
    | some e => rw [runTick_panicked env r _ (by rw [hp]; simp)]; exact h
    | none =>
      cases listed with
      | error err => rw [runTick_error env r ro err hp]; exact h
      | ok items =>
        rw [runTick_ok env r ro items hp]
        intro id
        rw [Run.trace_snoc]
        exact reconcile_tracks env ro items r.handledConfigMaps r.helm r.trace h id

/-- An entry that a step of the first loop creates comes with an install call. -/
theorem processConfigMap_creates {V B : Type} (env : Env V B) (st : State V B)
    (cm : ConfigMap) (id : String)
    (h : (processConfigMap env st cm).handledConfigMaps.get? id ≠ none) :
    st.handledConfigMaps.get? id ≠ none ∨
      ∃ v ok, Event.mk (Call.install id v) ok ∈ (processConfigMap env st cm).trace := by
  rcases processConfigMap_shape env st cm with ⟨_, h1⟩ | ⟨_, _, ⟨_, h2, _⟩ |
    ⟨v, ok, _, _, h1, h2⟩ | ⟨old, v, ok, he, _, _, _, h2⟩⟩
  · rw [h1] at h; exact Or.inl h
  · rw [h2] at h; exact Or.inl h
  · by_cases hid : cm.Name = id
    · refine Or.inr ⟨v, ok, ?_⟩
      rw [h1, hid]
      exact List.mem_append_right _ (List.mem_singleton.2 rfl)
    · rw [h2, GoMap.get?_set_ne _ _ hid] at h
      exact Or.inl h
  · rw [h2] at h
    cases ok with
    | false => exact Or.inl h
    | true =>
      by_cases hid : cm.Name = id
      · exact Or.inl (by rw [← hid, he]; simp)
      · rw [if_pos rfl, GoMap.get?_set_ne _ _ hid] at h
        exact Or.inl h

theorem installLoop_creates {V B : Type} (env : Env V B) (items : List ConfigMap)
    (id : String) (st : State V B)
    (h : (installLoop env st items).handledConfigMaps.get? id ≠ none) :
    st.handledConfigMaps.get? id ≠ none ∨
      ∃ v ok, Event.mk (Call.install id v) ok ∈ (installLoop env st items).trace := by
  induction items generalizing st with
  | nil => exact Or.inl h
  | cons c t ih =>
    rw [installLoop_cons] at h ⊢
    rcases ih _ h with h1 | h1
    · rcases processConfigMap_creates env st c id h1 with h2 | ⟨v, ok, h2⟩
      · exact Or.inl h2
      · exact Or.inr ⟨v, ok, installLoop_trace_mono env t _ _ h2⟩
    · exact Or.inr h1

/-- The second loop creates no entry. -/
theorem uninstallFold_creates_none {V B : Type} (env : Env V B) (names : List String)
    (id : String) (st : State V B)
    (h : (names.foldl (uninstallStale env) st).handledConfigMaps.get? id ≠ none) :
    st.handledConfigMaps.get? id ≠ none := by
  induction names generalizing st with
  | nil => exact h
  | cons n t ih =>
    rw [List.foldl_cons] at h
    have h1 := ih _ h
    rcases uninstallStale_shape env st n with ⟨_, h2⟩ | ⟨_, _, ok, _, h2⟩
    · rw [h2] at h1; exact h1
    · rw [h2] at h1
      cases ok with
      | false => exact h1
      | true =>
        by_cases hid : n = id
        · rw [if_pos rfl, hid, GoMap.get?_delete_self] at h1
          exact absurd rfl h1
        · rw [if_pos rfl, GoMap.get?_delete_ne _ hid] at h1
          exact h1

/-- An entry that a tick creates comes with an install call of the tick. -/
theorem reconcile_created_by_install {V B : Type} (env : Env V B) (ro : RangeOrder)
    (items : List ConfigMap) (handled : GoMap) (b : B) (id : String)
    (he : handled.get? id = none)
    (h : (reconcile env ro items handled b).handledConfigMaps.get? id ≠ none) :
    ∃ v ok, Event.mk (Call.install id v) ok ∈ (reconcile env ro items handled b).trace := by
  have h1 := uninstallFold_creates_none env _ id _ h
  rcases installLoop_creates env items id (⟨handled, [], b, []⟩ : State V B) h1 with h2 | ⟨v, ok, h2⟩
  · exact absurd he h2
  · exact ⟨v, ok, reconcile_trace_mono env ro items handled b _ h2⟩

/-! ## Which values the entries have -/

theorem succeeded_eq {V : Type} (id : String) (tr : List (Event V)) :
    succeeded id tr = (eventsFor id tr).any (fun e => e.ok && !e.call.isUninstall) := by
  induction tr with
  | nil => rfl
  | cons e t ih =>
    unfold succeeded eventsFor at *
    by_cases hn : e.call.name = id
    · simp [List.filter_cons, hn, ih]
    · simp [List.filter_cons, hn, ih]

theorem succeeded_of_events {V : Type} (id : String) (tr : List (Event V)) (e : Event V)
    (h : eventsFor id tr = [e]) :
    succeeded id tr = (e.ok && !e.call.isUninstall) := by
  rw [succeeded_eq, h]
  simp

theorem succeeded_of_no_events {V : Type} (id : String) (tr : List (Event V))
    (h : eventsFor id tr = []) : succeeded id tr = false := by
  rw [succeeded_eq, h]
  rfl

/-- With distinct triggering names, the payload of a release in the Desired Set is the
payload of its triggering object. -/
theorem payloadOf_eq {items : List ConfigMap} (hd : DistinctTriggers items) {cm : ConfigMap}
    (hm : cm ∈ items) (ht : isTrigger cm = true) :
    payloadOf items cm.Name = some (valuesYaml cm) := by
  induction items with
  | nil => simp at hm
  | cons c t ih =>
    unfold payloadOf
    by_cases hc : isTrigger c = true ∧ c.Name = cm.Name
    · have hfind : (isTrigger c && decide (c.Name = cm.Name)) = true := by simp [hc.1, hc.2]
      simp only [List.find?_cons, hfind, Option.map_some']
      rcases List.mem_cons.1 hm with h | h
      · rw [h]
      · exact absurd hc.2.symm (hd.head hc.1 cm h ht)
    · have hfind : (isTrigger c && decide (c.Name = cm.Name)) = false := by
        cases h1 : isTrigger c
        · rfl
        · simpa [h1] using hc
      simp only [List.find?_cons, hfind]
      rcases List.mem_cons.1 hm with h | h
      · exact absurd ⟨h ▸ ht, by rw [h]⟩ hc
      · exact ih hd.tail h

theorem lastApplied_snoc {V : Type} (id : String)
    (history : List (List ConfigMap × List (Event V))) (items : List ConfigMap)
    (tr : List (Event V)) :
    lastApplied id (history ++ [(items, tr)]) =
      if succeeded id tr = true then payloadOf items id else lastApplied id history := by
  simp [lastApplied, List.foldl_append]

/-- With distinct triggering names, the entry of a release after a tick is the empty
string, or the payload of the release if the tick installed or upgraded it successfully, or
the entry from before the tick if it did not. -/
theorem reconcile_value {V B : Type} (env : Env V B) (ro : RangeOrder)
    (items : List ConfigMap) (handled : GoMap) (b : B) (id x : String)
    (hd : DistinctTriggers items)
    (h : (reconcile env ro items handled b).handledConfigMaps.get? id = some x) :
    x = "" ∨
    (succeeded id (reconcile env ro items handled b).trace = true ∧
      payloadOf items id = some x) ∨
    (succeeded id (reconcile env ro items handled b).trace = false ∧
      handled.get? id = some x) := by
  rcases desired_or_undesired items id with ⟨cm, hm, ht, rfl⟩ | hu
  · have hpay := payloadOf_eq hd hm ht
    rcases reconcile_desired_cases env ro items handled b cm hd hm ht with
      ⟨_, w, ok, _, h1, h2⟩ | ⟨old, w, ok, he, _, _, h1, h2⟩ | ⟨he, h1, h2⟩ | ⟨_, _, h1, h2⟩
    · rw [h2] at h
      cases ok with
      | false => exact Or.inl (by simpa using h.symm)
      | true =>
        refine Or.inr (Or.inl ⟨?_, by rw [hpay, ← h]; rfl⟩)
        rw [succeeded_of_events _ _ _ h1]; rfl
    · rw [h2] at h
      cases ok with
      | false =>
        refine Or.inr (Or.inr ⟨?_, by rw [he, ← h]; rfl⟩)
        rw [succeeded_of_events _ _ _ h1]; rfl
      | true =>
        refine Or.inr (Or.inl ⟨?_, by rw [hpay, ← h]; rfl⟩)
        rw [succeeded_of_events _ _ _ h1]; rfl
    · exact Or.inr (Or.inr ⟨succeeded_of_no_events _ _ h1, by rw [he, ← h, h2]⟩)
    · exact Or.inr (Or.inr ⟨succeeded_of_no_events _ _ h1, by rw [← h2, h]⟩)
  · cases hg : handled.get? id with
    | none =>
      rw [(reconcile_absent env ro items handled b id hu hg).2] at h
      cases h
    | some old =>
      obtain ⟨ok, h1, h2⟩ := reconcile_stale env ro items handled b id old hu hg
      rw [h2] at h
      cases ok with
      | true => simp at h
      | false =>
        refine Or.inr (Or.inr ⟨?_, by rw [← h]; rfl⟩)
        rw [succeeded_of_events _ _ _ h1]; rfl

/-- In a run whose listings have distinct triggering names, every entry is the empty string
or the payload of the most recent successful install or upgrade of its release. -/
theorem runTicks_values {V B : Type} (env : Env V B)
    (ticks : List (RangeOrder × Except String (List ConfigMap)))
    (hd : ∀ t ∈ ticks, ∀ items, t.2 = Except.ok items → DistinctTriggers items) (r : Run V B)
    (h : ∀ id x, r.handledConfigMaps.get? id = some x →
      x = "" ∨ lastApplied id r.history = some x) :
    ∀ id x, (ticks.foldl (runTick env) r).handledConfigMaps.get? id = some x →
      x = "" ∨ lastApplied id (ticks.foldl (runTick env) r).history = some x := by
  induction ticks generalizing r with
  | nil => exact h
  | cons t rest ih =>
    rw [List.foldl_cons]
    apply ih (fun u hu => hd u (List.mem_cons_of_mem t hu))
    have hdt := hd t (List.mem_cons_self t rest)
    obtain ⟨ro, listed⟩ := t
    cases hp : r.panic with
    | some e => rw [runTick_panicked env r _ (by rw [hp]; simp)]; exact h
    | none =>
      cases listed with
      | error err => rw [runTick_error env r ro err hp]; exact h
      | ok items =>
        rw [runTick_ok env r ro items hp]
        intro id x hx
        rw [lastApplied_snoc]
        rcases reconcile_value env ro items r.handledConfigMaps r.helm id x (hdt items rfl) hx with
          h1 | ⟨h1, h2⟩ | ⟨h1, h2⟩
        · exact Or.inl h1
        · rw [if_pos h1]; exact Or.inr h2
        · rw [h1]
          exact h id x h2

/-- With distinct triggering names, a tick in which the payload of a release does not decode,
or in which its install or upgrade fails, leaves the entry as it was or sets it to the empty
string. -/
theorem reconcile_failure_value {V B : Type} (env : Env V B) (ro : RangeOrder)
    (items : List ConfigMap) (handled : GoMap) (b : B) (id P : String)
    (hd : DistinctTriggers items) (hdes : Desired items id P)
    (hfail : env.unmarshal P = none ∨
      ∃ e ∈ (reconcile env ro items handled b).trace,
        e.call.name = id ∧ e.call.isUninstall = false ∧ e.ok = false) :
    (reconcile env ro items handled b).handledConfigMaps.get? id = handled.get? id ∨
    (reconcile env ro items handled b).handledConfigMaps.get? id = some "" := by
  obtain ⟨cm, hm, ht, rfl, rfl⟩ := hdes
  rcases reconcile_desired_cases env ro items handled b cm hd hm ht with
    ⟨_, w, ok, hw, h1, h2⟩ | ⟨old, w, ok, he, _, hw, h1, h2⟩ | ⟨he, _, h2⟩ | ⟨_, _, _, h2⟩
  · rcases hfail with hf | ⟨e, hmem, hn, _, hok⟩
    · rw [hf] at hw; cases hw
    · have hev := mem_eventsFor hmem hn
      rw [h1, List.mem_singleton] at hev
      rw [hev] at hok
      simp only at hok
      rw [h2, hok]
      exact Or.inr rfl
  · rcases hfail with hf | ⟨e, hmem, hn, _, hok⟩
    · rw [hf] at hw; cases hw
    · have hev := mem_eventsFor hmem hn
      rw [h1, List.mem_singleton] at hev
      rw [hev] at hok
      simp only at hok
      rw [h2, hok, he]
      exact Or.inl rfl
  · exact Or.inl (by rw [h2, he])
  · exact Or.inl h2

/-! ## Listings of one namespace -/

/-- Objects with pairwise distinct names: the triggering ones have distinct names too. -/
theorem UniqueNames.distinctTriggers {items : List ConfigMap} (h : UniqueNames items) :
    DistinctTriggers items :=
  List.Nodup.sublist (List.Sublist.map ConfigMap.Name (List.filter_sublist items)) h

/-- With pairwise distinct names, the name of an object without the marker is the name of no
triggering object. -/
theorem UniqueNames.undesired {items : List ConfigMap} (h : UniqueNames items)
    {cm : ConfigMap} (hm : cm ∈ items) (hf : isTrigger cm = false) :
    Undesired items cm.Name := by
  intro c hc ht hn
  have hcc : c = cm := List.inj_on_of_nodup_map h hc hm hn
  rw [hcc, hf] at ht
  cases ht

/-- Two iterations with successful listings: the record of the run. -/
theorem mainLoop_two {V B : Type} (env : Env V B) (ro1 ro2 : RangeOrder)
    (items1 items2 : List ConfigMap) (handled : GoMap) (b : B) :
    mainLoop env [(ro1, Except.ok items1), (ro2, Except.ok items2)] handled b =
      { handledConfigMaps :=
          (reconcile env ro2 items2 (reconcile env ro1 items1 handled b).handledConfigMaps
            (reconcile env ro1 items1 handled b).helm).handledConfigMaps,
        helm :=
          (reconcile env ro2 items2 (reconcile env ro1 items1 handled b).handledConfigMaps
            (reconcile env ro1 items1 handled b).helm).helm,
        history :=
          [(items1, (reconcile env ro1 items1 handled b).trace),
           (items2,
            (reconcile env ro2 items2 (reconcile env ro1 items1 handled b).handledConfigMaps
              (reconcile env ro1 items1 handled b).helm).trace)],
        panic := none } := by
  simp [mainLoop, runTick]

/-- With distinct triggering names, a tracked release whose payload differs from its entry
and decodes gets exactly one call, the upgrade; the entry is the payload if it succeeds. -/
theorem reconcile_upgrade_only {V B : Type} (env : Env V B) (ro : RangeOrder)
    (items : List ConfigMap) (handled : GoMap) (b : B) (id P Q : String) (v : V)
    (hd : DistinctTriggers items) (he : handled.get? id = some P) (hdes : Desired items id Q)
    (hne : P ≠ Q) (hp : env.unmarshal Q = some v) :
    ∃ ok : Bool,
      eventsFor id (reconcile env ro items handled b).trace = [Event.mk (Call.upgrade id v) ok] ∧
      (ok = true → (reconcile env ro items handled b).handledConfigMaps.get? id = some Q) := by
  obtain ⟨cm, hm, ht, rfl, rfl⟩ := hdes
  rcases reconcile_desired_cases env ro items handled b cm hd hm ht with
    ⟨ho, _⟩ | ⟨old, w, ok, _, _, hw, hev, hen⟩ | ⟨ho, _⟩ | ⟨_, hw, _⟩
  · rw [he] at ho; cases ho
  · have hvw : w = v := Option.some.inj (hw.symm.trans hp)
    subst hvw
    exact ⟨ok, hev, fun hok => by rw [hen, if_pos hok]⟩
  · rw [he] at ho; exact absurd (Option.some.inj ho) hne
  · rw [hp] at hw; cases hw

/-- For a payload other than the empty string the retry after a failed install works: if
the install of an untracked release fails in a tick with distinct triggering names, the next
tick that lists the release with the same payload issues the upgrade and no install. -/
theorem retry_after_failed_install {V B : Type} (env : Env V B) (ro1 ro2 : RangeOrder)
    (items1 items2 : List ConfigMap) (handled : GoMap) (b : B) (id P : String) (v : V)
    (hd : DistinctTriggers items1) (he : handled.get? id = none) (hdes1 : Desired items1 id P)
    (hp : env.unmarshal P = some v) (hne : P ≠ "")
    (hfail : Event.mk (Call.install id v) false ∈ (reconcile env ro1 items1 handled b).trace)
    (hdes2 : Desired items2 id P) :
    ∃ tr2, (mainLoop env [(ro1, Except.ok items1), (ro2, Except.ok items2)] handled b).history =
        [(items1, (reconcile env ro1 items1 handled b).trace), (items2, tr2)] ∧
      (∃ ok, Event.mk (Call.upgrade id v) ok ∈ tr2) ∧
      ∀ e ∈ tr2, ∀ w, e.call ≠ Call.install id w := by
  have h1 := reconcile_failed_install env ro1 items1 handled b id P v hd he hdes1 hfail
  rw [mainLoop_two]
  exact ⟨_, rfl,
    reconcile_upgrade_issued env ro2 items2 _ _ id "" P v h1 (fun e => hne e.symm) hdes2 hp,
    reconcile_no_install env ro2 items2 _ _ id (by rw [h1]; simp)⟩

/-- In a run from the empty store whose listings have distinct triggering names, every entry
is the empty string or the payload of the most recent successful install or upgrade of its
release. -/
theorem mainLoop_entry_values {V B : Type} (env : Env V B)
    (ticks : List (RangeOrder × Except String (List ConfigMap))) (b : B)
    (hd : ∀ t ∈ ticks, ∀ items, t.2 = Except.ok items → DistinctTriggers items) :
    ∀ id x, (mainLoop env ticks [] b).handledConfigMaps.get? id = some x →
      x = "" ∨ lastApplied id (mainLoop env ticks [] b).history = some x :=
  runTicks_values env ticks hd ⟨[], b, [], none⟩ (fun id x h => by cases h)

/-- A tick issues no install and no upgrade call under a name that no triggering object of
the listing bears. -/
theorem reconcile_undesired_calls {V B : Type} (env : Env V B) (ro : RangeOrder)
    (items : List ConfigMap) (handled : GoMap) (b : B) (id : String) (hu : Undesired items id) :
    ∀ e ∈ (reconcile env ro items handled b).trace,
      ∀ v, e.call ≠ Call.install id v ∧ e.call ≠ Call.upgrade id v := by
  intro e he v
  constructor
  · intro hc
    have hev := mem_eventsFor he (show e.call.name = id by rw [hc]; rfl)
    have := reconcile_undesired_events env ro items handled b id hu e hev
    rw [hc] at this
    cases this
  · intro hc
    have hev := mem_eventsFor he (show e.call.name = id by rw [hc]; rfl)
    have := reconcile_undesired_events env ro items handled b id hu e hev
    rw [hc] at this
    cases this

/-! ## Claims -/

/-- C1 (convergence). In a tick whose triggering objects have pairwise distinct names, a
release `id` without an entry in `handledConfigMaps` that is in the Desired Set with a
payload `P` that decodes to `v` gets exactly one call, `install id v`, and no upgrade or
uninstall call; if that call succeeds the store after the tick maps `id` to `P`. -/
theorem C1_first_sight_installs {V B : Type} (env : Env V B) (ro : RangeOrder)
    (items : List ConfigMap) (handled : GoMap) (b : B) (id P : String) (v : V)
    (hd : DistinctTriggers items) (he : handled.get? id = none) (hdes : Desired items id P)
    (hp : env.unmarshal P = some v) :
    ∃ ok : Bool,
      eventsFor id (reconcile env ro items handled b).trace = [Event.mk (Call.install id v) ok] ∧
      (ok = true → (reconcile env ro items handled b).handledConfigMaps.get? id = some P) := by
  obtain ⟨cm, hm, ht, rfl, rfl⟩ := hdes
  rcases reconcile_desired_cases env ro items handled b cm hd hm ht with
    ⟨_, w, ok, hw, hev, hen⟩ | ⟨old, _, _, ho, _⟩ | ⟨ho, _⟩ | ⟨_, hw, _⟩
  · have hvw : w = v := Option.some.inj (hw.symm.trans hp)
    subst hvw
    exact ⟨ok, hev, fun hok => by rw [hen, if_pos hok]⟩
  · rw [he] at ho; cases ho
  · rw [he] at ho; cases ho
  · rw [hp] at hw; cases hw

/-- C1 at a listing with one plain and one triggering object and a store that tracks another
release. -/
theorem C1_first_sight_installs_witness :
    DistinctTriggers mixedListing ∧ GoMap.get? [("C", "old")] "A" = none ∧
    Desired mixedListing "A" "replicas: 1" ∧
    ∃ ok : Bool,
      eventsFor "A" (reconcile sampleEnv RangeOrder.stored mixedListing [("C", "old")] []).trace =
        [Event.mk (Call.install "A" "replicas:1") ok] ∧
      (ok = true →
        (reconcile sampleEnv RangeOrder.stored mixedListing
          [("C", "old")] []).handledConfigMaps.get? "A" = some "replicas: 1") :=
  have hdes : Desired mixedListing "A" "replicas: 1" :=
    ⟨triggerCM "A" "replicas: 1", by decide, by decide, rfl, rfl⟩
  ⟨by decide, rfl, hdes,
    C1_first_sight_installs sampleEnv RangeOrder.stored mixedListing [("C", "old")] []
      "A" "replicas: 1" "replicas:1" (by decide) rfl hdes rfl⟩

/-- C2 (change detection). In a tick whose triggering objects have pairwise distinct names
(all the more when all object names are distinct), a release `id` whose entry is `P` and
whose Desired Set payload is `Q`, with `P ≠ Q` as raw strings and `Q` decoding to `v`, gets
exactly one call, `upgrade id v`, and no install or uninstall call; if that call succeeds
the store after the tick maps `id` to `Q`.  Nothing is assumed about the decoded form of
`P`, so this holds also when `P` and `Q` decode to the same values. -/
theorem C2_changed_payload_upgrades {V B : Type} (env : Env V B) (ro : RangeOrder)
    (items : List ConfigMap) (handled : GoMap) (b : B) (id P Q : String) (v : V)
    (hd : DistinctTriggers items) (he : handled.get? id = some P) (hdes : Desired items id Q)
    (hne : P ≠ Q) (hp : env.unmarshal Q = some v) :
    ∃ ok : Bool,
      eventsFor id (reconcile env ro items handled b).trace = [Event.mk (Call.upgrade id v) ok] ∧
      (ok = true → (reconcile env ro items handled b).handledConfigMaps.get? id = some Q) := by
  obtain ⟨cm, hm, ht, rfl, rfl⟩ := hdes
  rcases reconcile_desired_cases env ro items handled b cm hd hm ht with
    ⟨ho, _⟩ | ⟨old, w, ok, _, _, hw, hev, hen⟩ | ⟨ho, _⟩ | ⟨_, hw, _⟩
  · rw [he] at ho; cases ho
  · have hvw : w = v := Option.some.inj (hw.symm.trans hp)
    subst hvw
    exact ⟨ok, hev, fun hok => by rw [hen, if_pos hok]⟩
  · rw [he] at ho; exact absurd (Option.some.inj ho) hne
  · rw [hp] at hw; cases hw

/-- C2 at a store entry and a payload that differ by one blank and decode to the same values. -/
theorem C2_changed_payload_upgrades_witness :
    DistinctTriggers mixedListing ∧ GoMap.get? [("A", "replicas:  1")] "A" = some "replicas:  1" ∧
    Desired mixedListing "A" "replicas: 1" ∧ "replicas:  1" ≠ "replicas: 1" ∧
    sampleEnv.unmarshal "replicas:  1" = sampleEnv.unmarshal "replicas: 1" ∧
    ∃ ok : Bool,
      eventsFor "A"
          (reconcile sampleEnv RangeOrder.stored mixedListing [("A", "replicas:  1")] []).trace =
        [Event.mk (Call.upgrade "A" "replicas:1") ok] ∧
      (ok = true →
        (reconcile sampleEnv RangeOrder.stored mixedListing
          [("A", "replicas:  1")] []).handledConfigMaps.get? "A" = some "replicas: 1") :=
  have hdes : Desired mixedListing "A" "replicas: 1" :=
    ⟨triggerCM "A" "replicas: 1", by decide, by decide, rfl, rfl⟩
  ⟨by decide, rfl, hdes, by decide, by decide,
    C2_changed_payload_upgrades sampleEnv RangeOrder.stored mixedListing [("A", "replicas:  1")] []
      "A" "replicas:  1" "replicas: 1" "replicas:1" (by decide) rfl hdes (by decide) rfl⟩

/-- C3 (idempotence). For every store, backend and listing whose triggering objects have
pairwise distinct names: a release whose entry equals its current payload receives no call
and keeps its entry; and when a tick is followed by a second tick on the same listing
(whatever the range orders), a release whose install or upgrade succeeded in the first
tick receives no call at all in the second and keeps its entry. -/
theorem C3_second_tick_is_silent {V B : Type} (env : Env V B) (ro1 ro2 : RangeOrder)
    (items : List ConfigMap) (handled : GoMap) (b : B) (id : String)
    (hd : DistinctTriggers items) :
    (∀ P, handled.get? id = some P → Desired items id P →
      eventsFor id (reconcile env ro1 items handled b).trace = [] ∧
      (reconcile env ro1 items handled b).handledConfigMaps.get? id = some P) ∧
    ((∃ e ∈ (reconcile env ro1 items handled b).trace, e.ok = true ∧
        ∃ v, e.call = Call.install id v ∨ e.call = Call.upgrade id v) →
      eventsFor id (secondTick env ro1 items ro2 items handled b).trace = [] ∧
      (secondTick env ro1 items ro2 items handled b).handledConfigMaps.get? id =
        (reconcile env ro1 items handled b).handledConfigMaps.get? id) := by
  unfold secondTick
  refine ⟨fun P he hdes => reconcile_converged env ro1 items handled b id P hd he hdes, ?_⟩
  rintro ⟨e, hmem, hok, v, hcall⟩
  have hname : e.call.name = id := by
    rcases hcall with h | h <;> rw [h] <;> rfl
  have hev := mem_eventsFor hmem hname
  have hentry : ∃ cm ∈ items, isTrigger cm = true ∧ cm.Name = id ∧
      (reconcile env ro1 items handled b).handledConfigMaps.get? id = some (valuesYaml cm) := by
    rcases desired_or_undesired items id with ⟨cm, hm, ht, rfl⟩ | hu
    · refine ⟨cm, hm, ht, rfl, ?_⟩
      rcases reconcile_desired_cases env ro1 items handled b cm hd hm ht with
        ⟨_, w, ok, _, h1, h2⟩ | ⟨old, w, ok, _, _, _, h1, h2⟩ | ⟨_, h1, _⟩ | ⟨_, _, h1, _⟩
      · rw [h1, List.mem_singleton] at hev
        have : ok = true := by rw [hev] at hok; exact hok
        rw [h2, if_pos this]
      · rw [h1, List.mem_singleton] at hev
        have : ok = true := by rw [hev] at hok; exact hok
        rw [h2, if_pos this]
      · rw [h1] at hev; cases hev
      · rw [h1] at hev; cases hev
    · have hun := reconcile_undesired_events env ro1 items handled b id hu e hev
      rcases hcall with h | h <;> rw [h] at hun <;> cases hun
  obtain ⟨cm, hm, ht, hn, he1⟩ := hentry
  have h2 := reconcile_converged env ro2 items (reconcile env ro1 items handled b).handledConfigMaps
    (reconcile env ro1 items handled b).helm id (valuesYaml cm) hd he1 ⟨cm, hm, ht, hn, rfl⟩
  exact ⟨h2.1, h2.2.trans he1.symm⟩

/-- C3 at an empty store: the first tick installs `A`, the second one issues no call for it. -/
theorem C3_second_tick_is_silent_witness :
    DistinctTriggers mixedListing ∧
    eventsFor "A" (secondTick sampleEnv RangeOrder.stored mixedListing
      RangeOrder.stored mixedListing [] []).trace = [] :=
  ⟨by decide,
    ((C3_second_tick_is_silent sampleEnv RangeOrder.stored RangeOrder.stored mixedListing [] []
      "A" (by decide)).2
      ⟨Event.mk (Call.install "A" "replicas:1") true, by decide, rfl, "replicas:1",
        Or.inl rfl⟩).1⟩

/-- C4 (removal). A release `id` that has an entry when the tick starts and is absent from
the tick's Desired Set gets exactly one call, `uninstall id`, and no install or upgrade
call; if the call succeeds `id` has no entry after the tick, and if it fails the entry is
what it was before the tick. -/
theorem C4_stale_release_uninstalled {V B : Type} (env : Env V B) (ro : RangeOrder)
    (items : List ConfigMap) (handled : GoMap) (b : B) (id old : String)
    (he : handled.get? id = some old) (hu : Undesired items id) :
    ∃ ok : Bool,
      eventsFor id (reconcile env ro items handled b).trace = [Event.mk (Call.uninstall id) ok] ∧
      (ok = true → (reconcile env ro items handled b).handledConfigMaps.get? id = none) ∧
      (ok = false → (reconcile env ro items handled b).handledConfigMaps.get? id = some old) := by
  obtain ⟨ok, h1, h2⟩ := reconcile_stale env ro items handled b id old hu he
  refine ⟨ok, h1, fun hok => ?_, fun hok => ?_⟩
  · rw [h2, if_pos hok]
  · rw [h2, hok]; rfl

/-- C4 at a store that tracks a release `C` which the listing does not name. -/
theorem C4_stale_release_uninstalled_witness :
    GoMap.get? [("C", "old")] "C" = some "old" ∧ Undesired mixedListing "C" ∧
    ∃ ok : Bool,
      eventsFor "C" (reconcile sampleEnv RangeOrder.stored mixedListing [("C", "old")] []).trace =
        [Event.mk (Call.uninstall "C") ok] ∧
      (ok = true → (reconcile sampleEnv RangeOrder.stored mixedListing
        [("C", "old")] []).handledConfigMaps.get? "C" = none) ∧
      (ok = false → (reconcile sampleEnv RangeOrder.stored mixedListing
        [("C", "old")] []).handledConfigMaps.get? "C" = some "old") :=
  have hu : Undesired mixedListing "C" := by
    intro cm hm _
    simp only [mixedListing, List.mem_cons, List.mem_singleton, List.not_mem_nil, or_false] at hm
    rcases hm with h | h <;> rw [h] <;> decide
  ⟨rfl, hu,
    C4_stale_release_uninstalled sampleEnv RangeOrder.stored mixedListing [("C", "old")] []
      "C" "old" rfl hu⟩

/-- C5 (retry after a failed install) at the empty payload.  Release `A` is untracked and its
triggering ConfigMap has no `values.yaml` field, so its payload is the empty string, which
decodes.  The install fails in the first tick and leaves the entry `""`; the second tick
lists `A` with the same payload, finds the entry equal to the payload and issues no call at
all: no upgrade follows the failed install, and the store keeps the entry `""`. -/
theorem C5_empty_payload_never_retried :
    GoMap.get? [] "A" = none ∧ isTrigger (bareTriggerCM "A") = true ∧
    valuesYaml (bareTriggerCM "A") = "" ∧ sampleEnv.unmarshal "" = some "" ∧
    (mainLoop sampleEnv
      [(RangeOrder.stored, Except.ok [bareTriggerCM "A"]),
       (RangeOrder.stored, Except.ok [bareTriggerCM "A"])] [] [false]).history =
      [([bareTriggerCM "A"], [Event.mk (Call.install "A" "") false]),
       ([bareTriggerCM "A"], [])] ∧
    (mainLoop sampleEnv
      [(RangeOrder.stored, Except.ok [bareTriggerCM "A"]),
       (RangeOrder.stored, Except.ok [bareTriggerCM "A"])] [] [false]).handledConfigMaps =
      [("A", "")] := by
  decide

/-- C6 (sentinel on a failed install).  The objects of a listing have pairwise distinct
names, so its triggering objects have.  In such a tick, if `id` is untracked, is in the
Desired Set with a payload `P` that decodes to `v`, and its install call fails, then after
the tick the store has an entry for `id` and its value is the empty string; it is not `P`
unless `P` is itself empty. -/
theorem C6_failed_install_leaves_sentinel {V B : Type} (env : Env V B) (ro : RangeOrder)
    (items : List ConfigMap) (handled : GoMap) (b : B) (id P : String) (v : V)
    (hd : DistinctTriggers items) (he : handled.get? id = none) (hdes : Desired items id P)
    (hp : env.unmarshal P = some v)
    (hfail : Event.mk (Call.install id v) false ∈ (reconcile env ro items handled b).trace) :
    (reconcile env ro items handled b).handledConfigMaps.get? id = some "" ∧
    (P ≠ "" → (reconcile env ro items handled b).handledConfigMaps.get? id ≠ some P) := by
  have _ := hp
  have h1 := reconcile_failed_install env ro items handled b id P v hd he hdes hfail
  refine ⟨h1, fun hne hP => ?_⟩
  rw [h1] at hP
  exact hne (Option.some.inj hP).symm

/-- C6 at a backend whose first call fails. -/
theorem C6_failed_install_leaves_sentinel_witness :
    DistinctTriggers mixedListing ∧ Desired mixedListing "A" "replicas: 1" ∧
    Event.mk (Call.install "A" "replicas:1") false ∈
      (reconcile sampleEnv RangeOrder.stored mixedListing [] [false]).trace ∧
    (reconcile sampleEnv RangeOrder.stored mixedListing [] [false]).handledConfigMaps.get? "A" =
      some "" :=
  have hdes : Desired mixedListing "A" "replicas: 1" :=
    ⟨triggerCM "A" "replicas: 1", by decide, by decide, rfl, rfl⟩
  ⟨by decide, hdes, by decide,
    (C6_failed_install_leaves_sentinel sampleEnv RangeOrder.stored mixedListing [] [false]
      "A" "replicas: 1" "replicas:1" (by decide) rfl hdes rfl (by decide)).1⟩

/-- C7 (a failed upgrade is retried).  Let `id` be tracked with entry `P` and be in the
Desired Set with a payload `Q ≠ P` that decodes to `v`.  The tick issues `upgrade id v`; if
every upgrade call it issues for `id` fails, the entry of `id` after the tick is still `P`.
If the following tick lists `id` with the same payload `Q`, the run of the two ticks records
two iterations, and the calls of the second one hold `upgrade id v` again and no install of
`id`; when the triggering objects of the second listing have distinct names, that upgrade
is the only call of the second iteration for `id`, and the entry after it is `Q` if it
succeeds.  No assumption on the names of the objects of the first listing is needed. -/
theorem C7_failed_upgrade_retried {V B : Type} (env : Env V B) (ro1 ro2 : RangeOrder)
    (items1 items2 : List ConfigMap) (handled : GoMap) (b : B) (id P Q : String) (v : V)
    (he : handled.get? id = some P) (hdes1 : Desired items1 id Q) (hne : Q ≠ P)
    (hp : env.unmarshal Q = some v)
    (hfail : ∀ e ∈ (reconcile env ro1 items1 handled b).trace,
      (∃ w, e.call = Call.upgrade id w) → e.ok = false) :
    Event.mk (Call.upgrade id v) false ∈ (reconcile env ro1 items1 handled b).trace ∧
    (reconcile env ro1 items1 handled b).handledConfigMaps.get? id = some P ∧
    (Desired items2 id Q →
      ∃ tr2,
        (mainLoop env [(ro1, Except.ok items1), (ro2, Except.ok items2)] handled b).history =
          [(items1, (reconcile env ro1 items1 handled b).trace), (items2, tr2)] ∧
        (∃ ok, Event.mk (Call.upgrade id v) ok ∈ tr2) ∧
        (∀ e ∈ tr2, ∀ w, e.call ≠ Call.install id w) ∧
        (DistinctTriggers items2 →
          ∃ ok, eventsFor id tr2 = [Event.mk (Call.upgrade id v) ok] ∧
            (ok = true →
              (mainLoop env [(ro1, Except.ok items1), (ro2, Except.ok items2)]
                handled b).handledConfigMaps.get? id = some Q))) := by
  have hissued := reconcile_upgrade_issued env ro1 items1 handled b id P Q v he
    (fun e => hne e.symm) hdes1 hp
  have hkept : (reconcile env ro1 items1 handled b).handledConfigMaps.get? id = some P := by
    obtain ⟨cm, hm, ht, hn, _⟩ := hdes1
    have hseen := installLoop_seen env items1 cm hm ht (⟨handled, [], b, []⟩ : State V B)
    rw [hn] at hseen
    have hk := uninstallFold_kept env
      (ro1.order (installLoop env ⟨handled, [], b, []⟩ items1).handledConfigMaps.keys) id
      (installLoop env ⟨handled, [], b, []⟩ items1) hseen
    refine hk.1.trans (installLoop_failed_upgrades env items1 id P _ he ?_)
    intro e hmem hw
    exact hfail e (reconcile_trace_mono env ro1 items1 handled b e hmem) hw
  refine ⟨?_, hkept, fun hdes2 => ?_⟩
  · obtain ⟨ok, hok⟩ := hissued
    have : ok = false := hfail _ hok ⟨v, rfl⟩
    rw [this] at hok
    exact hok
  · rw [mainLoop_two]
    exact ⟨_, rfl,
      reconcile_upgrade_issued env ro2 items2 _ _ id P Q v hkept (fun e => hne e.symm) hdes2 hp,
      reconcile_no_install env ro2 items2 _ _ id (by rw [hkept]; simp),
      fun hd2 => reconcile_upgrade_only env ro2 items2 _ _ id P Q v hd2 hkept hdes2
        (fun e => hne e.symm) hp⟩

/-- C7 at a backend whose first call fails and whose second succeeds: the first tick records
the failed upgrade of `A` and keeps the entry, the second tick records the upgrade of `A`
again, this time successful. -/
theorem C7_failed_upgrade_retried_witness :
    GoMap.get? [("A", "replicas: 0")] "A" = some "replicas: 0" ∧
    Desired mixedListing "A" "replicas: 1" ∧
    (mainLoop sampleEnv
      [(RangeOrder.stored, Except.ok mixedListing), (RangeOrder.stored, Except.ok mixedListing)]
      [("A", "replicas: 0")] [false]).history =
      [(mixedListing, [Event.mk (Call.upgrade "A" "replicas:1") false]),
       (mixedListing, [Event.mk (Call.upgrade "A" "replicas:1") true])] ∧
    Event.mk (Call.upgrade "A" "replicas:1") false ∈
      (reconcile sampleEnv RangeOrder.stored mixedListing [("A", "replicas: 0")] [false]).trace ∧
    (reconcile sampleEnv RangeOrder.stored mixedListing
      [("A", "replicas: 0")] [false]).handledConfigMaps.get? "A" = some "replicas: 0" ∧
    ∃ tr2,
      (mainLoop sampleEnv
        [(RangeOrder.stored, Except.ok mixedListing), (RangeOrder.stored, Except.ok mixedListing)]
        [("A", "replicas: 0")] [false]).history =
        [(mixedListing, (reconcile sampleEnv RangeOrder.stored mixedListing
            [("A", "replicas: 0")] [false]).trace), (mixedListing, tr2)] ∧
      ∃ ok, eventsFor "A" tr2 = [Event.mk (Call.upgrade "A" "replicas:1") ok] :=
  have hdes : Desired mixedListing "A" "replicas: 1" :=
    ⟨triggerCM "A" "replicas: 1", by decide, by decide, rfl, rfl⟩
  have htrace : (reconcile sampleEnv RangeOrder.stored mixedListing
      [("A", "replicas: 0")] [false]).trace =
      [Event.mk (Call.upgrade "A" "replicas:1") false] := by decide
  have h := C7_failed_upgrade_retried sampleEnv RangeOrder.stored RangeOrder.stored
    mixedListing mixedListing [("A", "replicas: 0")] [false] "A" "replicas: 0" "replicas: 1"
    "replicas:1" rfl hdes (by decide) rfl
    (fun e hmem _ => by
      rw [htrace, List.mem_singleton] at hmem
      rw [hmem])
  have h2 := h.2.2 hdes
  ⟨rfl, hdes, by decide, h.1, h.2.1,
    h2.elim (fun tr2 q => ⟨tr2, q.1, (q.2.2.2 (by decide)).elim (fun ok r => ⟨ok, r.1⟩)⟩)⟩

/-- C9 (ordering guarantee).  For every store, listing and backend, no release receives
both an install or upgrade call and an uninstall call in one tick; in particular a release
that is untracked when the tick starts and has an entry after the install and upgrade phase
receives no uninstall call in that tick. -/
theorem C9_never_both_phases {V B : Type} (env : Env V B) (ro : RangeOrder)
    (items : List ConfigMap) (handled : GoMap) (b : B) (id : String) :
    ¬ ((∃ e ∈ (reconcile env ro items handled b).trace,
          ∃ v, e.call = Call.install id v ∨ e.call = Call.upgrade id v) ∧
        (∃ e ∈ (reconcile env ro items handled b).trace, e.call = Call.uninstall id)) ∧
    (handled.get? id = none →
      (installLoop env ⟨handled, [], b, []⟩ items).handledConfigMaps.get? id ≠ none →
      ∀ e ∈ (reconcile env ro items handled b).trace, e.call ≠ Call.uninstall id) := by
  have hm := reconcile_marks env ro items handled b
  constructor
  · rintro ⟨⟨e1, he1, v, hc1⟩, ⟨e2, he2, hc2⟩⟩
    have h1 := hm e1 he1
    have h2 := hm e2 he2
    have hn1 : e1.call.name = id := by rcases hc1 with h | h <;> rw [h] <;> rfl
    have hu1 : e1.call.isUninstall = false := by rcases hc1 with h | h <;> rw [h] <;> rfl
    rw [hn1, hu1] at h1
    rw [hc2] at h2
    exact absurd (h1.2 (h2.1 rfl)) (by simp)
  · intro he hcreated e hmem hcall
    have h2 := hm e hmem
    rw [hcall] at h2
    rcases installLoop_created env items id (⟨handled, [], b, []⟩ : State V B) hcreated with
      h3 | h3
    · exact h3 he
    · exact h3 (h2.1 rfl)

/-- C8 (parse-failure isolation).  The objects of a listing have pairwise distinct names, so
its triggering objects have.  In such a tick, let `cm` be a triggering object whose payload
does not decode.  The tick does not abort; it issues no install, upgrade or uninstall call for the release of `cm` and
leaves its entry as it was, present with the same value or absent; and for every other
release the calls of the tick are the one that its own entry and payload determine
(`plannedCall`). -/
theorem C8_undecodable_payload_isolated {V B : Type} (env : Env V B) (ro : RangeOrder)
    (items : List ConfigMap) (handled : GoMap) (b : B) (cm : ConfigMap)
    (hd : DistinctTriggers items) (hm : cm ∈ items) (ht : isTrigger cm = true)
    (hbad : env.unmarshal (valuesYaml cm) = none) :
    tick env ro (Except.ok items) handled b = Except.ok (reconcile env ro items handled b) ∧
    eventsFor cm.Name (reconcile env ro items handled b).trace = [] ∧
    (reconcile env ro items handled b).handledConfigMaps.get? cm.Name =
      handled.get? cm.Name ∧
    ∀ id, id ≠ cm.Name →
      (∀ Q, Desired items id Q →
        (eventsFor id (reconcile env ro items handled b).trace).map Event.call =
          (plannedCall env.unmarshal id (handled.get? id) (some Q)).toList) ∧
      (Undesired items id →
        (eventsFor id (reconcile env ro items handled b).trace).map Event.call =
          (plannedCall env.unmarshal id (handled.get? id) none).toList) := by
  refine ⟨rfl, ?_, ?_, fun id _ => reconcile_planned env ro items handled b id hd⟩
  · rcases reconcile_desired_cases env ro items handled b cm hd hm ht with
      ⟨_, w, _, hw, _⟩ | ⟨_, w, _, _, _, hw, _⟩ | ⟨_, h1, _⟩ | ⟨_, _, h1, _⟩
    · rw [hbad] at hw; cases hw
    · rw [hbad] at hw; cases hw
    · exact h1
    · exact h1
  · rcases reconcile_desired_cases env ro items handled b cm hd hm ht with
      ⟨_, w, _, hw, _⟩ | ⟨_, w, _, _, _, hw, _⟩ | ⟨he, _, h2⟩ | ⟨_, _, _, h2⟩
    · rw [hbad] at hw; cases hw
    · rw [hbad] at hw; cases hw
    · rw [h2, he]
    · exact h2

/-- C8 at a listing where `A` has an undecodable payload and `B` is seen for the first
time. -/
theorem C8_undecodable_payload_isolated_witness :
    DistinctTriggers badListing ∧ triggerCM "A" "a: b: c" ∈ badListing ∧
    sampleEnv.unmarshal (valuesYaml (triggerCM "A" "a: b: c")) = none ∧
    eventsFor "A" (reconcile sampleEnv RangeOrder.stored badListing [("A", "replicas: 1")]
      []).trace = [] ∧
    (reconcile sampleEnv RangeOrder.stored badListing [("A", "replicas: 1")]
      []).handledConfigMaps.get? "A" = some "replicas: 1" ∧
    (eventsFor "B" (reconcile sampleEnv RangeOrder.stored badListing [("A", "replicas: 1")]
      []).trace).map Event.call = [Call.install "B" "replicas:2"] :=
  have h := C8_undecodable_payload_isolated sampleEnv RangeOrder.stored badListing
    [("A", "replicas: 1")] [] (triggerCM "A" "a: b: c") (by decide) (by decide) (by decide) rfl
  ⟨by decide, by decide, rfl, h.2.1, h.2.2.1,
    ((h.2.2.2 "B" (by decide)).1 "replicas: 2"
      ⟨triggerCM "B" "replicas: 2", by decide, by decide, rfl, rfl⟩)⟩

/-- C10 (the filter of the Desired-State Reader).  An object is triggering if and
only if its `trigger-install` annotation equals `true` when letter case is ignored: `true`,
`TRUE` and `True` qualify; a missing annotation, the empty string, `yes`, `1` and ` true` do
not.  The releases seen in a tick are the names of the triggering objects of the listing.
The step for a triggering object marks its name as seen and issues calls only under its name
and with the decoded `values.yaml` field of its data; the step for any other object changes
nothing.  For every object that does not qualify, no install or upgrade call is issued under
its name in the tick: this holds whenever no triggering object of the listing bears the same
name, and so for every listing of one namespace, whose object names are pairwise distinct. -/
theorem C10_trigger_filter {V B : Type} (env : Env V B) (ro : RangeOrder)
    (items : List ConfigMap) (handled : GoMap) (b : B) :
    (∀ cm : ConfigMap,
      isTrigger cm = true ↔ cm.Annotations.get "trigger-install" ∈ trueSpellings) ∧
    (∀ n : String, isTrigger (markedCM n "true") = true ∧ isTrigger (markedCM n "TRUE") = true ∧
      isTrigger (markedCM n "True") = true ∧ isTrigger (ConfigMap.mk n [] []) = false ∧
      isTrigger (markedCM n "") = false ∧ isTrigger (markedCM n "yes") = false ∧
      isTrigger (markedCM n "1") = false ∧ isTrigger (markedCM n " true") = false) ∧
    (∀ id, (installLoop env ⟨handled, [], b, []⟩ items).seenConfigMaps.get? id ≠ none ↔
      ∃ cm ∈ items, isTrigger cm = true ∧ cm.Name = id) ∧
    (∀ (cm : ConfigMap) (st : State V B), isTrigger cm = true →
      (processConfigMap env st cm).seenConfigMaps.get? cm.Name = some cm.Name ∧
      ∀ e ∈ (processConfigMap env st cm).trace, e ∈ st.trace ∨
        ∃ v, env.unmarshal (cm.Data.get "values.yaml") = some v ∧
          (e.call = Call.install cm.Name v ∨ e.call = Call.upgrade cm.Name v)) ∧
    (∀ (cm : ConfigMap) (st : State V B), isTrigger cm = false →
      processConfigMap env st cm = st) ∧
    (∀ cm ∈ items, isTrigger cm = false → Undesired items cm.Name →
      ∀ e ∈ (reconcile env ro items handled b).trace,
        ∀ v, e.call ≠ Call.install cm.Name v ∧ e.call ≠ Call.upgrade cm.Name v) ∧
    (UniqueNames items → ∀ cm ∈ items, isTrigger cm = false →
      ∀ e ∈ (reconcile env ro items handled b).trace,
        ∀ v, e.call ≠ Call.install cm.Name v ∧ e.call ≠ Call.upgrade cm.Name v) := by
  refine ⟨?_, ?_, ?_, ?_, ?_, ?_, ?_⟩
  · intro cm
    unfold isTrigger
    rw [decide_eq_true_iff]
    exact stringsToLower_eq_true _
  · intro n
    refine ⟨?_, ?_, ?_, ?_, ?_, ?_, ?_, ?_⟩ <;> rfl
  · exact fun id => installLoop_seen_iff env items handled b id
  · intro cm st ht
    refine ⟨processConfigMap_seen env st cm ht, fun e he => ?_⟩
    rcases processConfigMap_shape env st cm with ⟨hf, _⟩ | ⟨_, _, ⟨h1, _⟩ |
      ⟨v, ok, _, hv, h1, _⟩ | ⟨old, v, ok, _, _, hv, h1, _⟩⟩
    · rw [ht] at hf; cases hf
    · rw [h1] at he; exact Or.inl he
    · rw [h1] at he
      rcases List.mem_append.1 he with he | he
      · exact Or.inl he
      · rw [List.mem_singleton] at he
        exact Or.inr ⟨v, hv, Or.inl (by rw [he])⟩
    · rw [h1] at he
      rcases List.mem_append.1 he with he | he
      · exact Or.inl he
      · rw [List.mem_singleton] at he
        exact Or.inr ⟨v, hv, Or.inr (by rw [he])⟩
  · exact fun cm st hf => processConfigMap_skip env st cm hf
  · exact fun cm _ _ hu => reconcile_undesired_calls env ro items handled b cm.Name hu
  · exact fun hun cm hm hf =>
      reconcile_undesired_calls env ro items handled b cm.Name (hun.undesired hm hf)

/-- C10 at a listing of two objects with distinct names: no install or upgrade call is issued
under the name of the object without the marker, while the other release is installed. -/
theorem C10_trigger_filter_witness :
    UniqueNames mixedListing ∧ plainCM "B" "replicas: 3" ∈ mixedListing ∧
    isTrigger (plainCM "B" "replicas: 3") = false ∧
    (reconcile sampleEnv RangeOrder.stored mixedListing [] []).trace =
      [Event.mk (Call.install "A" "replicas:1") true] ∧
    ∀ e ∈ (reconcile sampleEnv RangeOrder.stored mixedListing [] []).trace,
      ∀ v, e.call ≠ Call.install (plainCM "B" "replicas: 3").Name v ∧
        e.call ≠ Call.upgrade (plainCM "B" "replicas: 3").Name v :=
  ⟨by decide, by decide, by decide, by decide,
    (C10_trigger_filter sampleEnv RangeOrder.stored mixedListing [] []).2.2.2.2.2.2
      (by decide) (plainCM "B" "replicas: 3") (by decide) (by decide)⟩

/-- C11 (fatal fetch error).  A tick whose listing fails ends with the panic.  In a run, the
tick with the failed listing leaves the store, the backend and the record of calls as the
ticks before it left them: it issues no install, upgrade or uninstall call (so it does not
uninstall the tracked releases as an empty listing would), and no later tick runs, since
the run has panicked. -/
theorem C11_failed_listing_panics {V B : Type} (env : Env V B) (ro : RangeOrder) (err : String)
    (pre rest : List (RangeOrder × Except String (List ConfigMap))) (handled : GoMap) (b : B) :
    tick env ro (Except.error err) handled b = Except.error err ∧
    (mainLoop env (pre ++ (ro, Except.error err) :: rest) handled b).handledConfigMaps =
      (mainLoop env pre handled b).handledConfigMaps ∧
    (mainLoop env (pre ++ (ro, Except.error err) :: rest) handled b).helm =
      (mainLoop env pre handled b).helm ∧
    (mainLoop env (pre ++ (ro, Except.error err) :: rest) handled b).history =
      (mainLoop env pre handled b).history ∧
    (mainLoop env (pre ++ (ro, Except.error err) :: rest) handled b).panic ≠ none ∧
    ((mainLoop env pre handled b).panic = none →
      (mainLoop env (pre ++ (ro, Except.error err) :: rest) handled b).panic = some err) := by
  refine ⟨rfl, ?_⟩
  rw [mainLoop_append, List.foldl_cons]
  cases hp : (mainLoop env pre handled b).panic with
  | some e =>
    have h1 : (mainLoop env pre handled b).panic ≠ none := by rw [hp]; simp
    rw [runTick_panicked env _ _ h1, runTicks_panicked env rest _ h1]
    exact ⟨rfl, rfl, rfl, h1, fun h => by cases h⟩
  | none =>
    rw [runTick_error env _ ro err hp, runTicks_panicked env rest _ (by simp)]
    exact ⟨rfl, rfl, rfl, by simp, fun _ => rfl⟩

/-- C12 (end-to-end scenario).  From an empty store, with a backend whose every call
succeeds and a decoder that accepts both payloads, the four ticks on the Desired Sets
`A: replicas: 1`, `A: replicas: 1`, `A: replicas: 2` and the empty one issue exactly the
calls install `A`, none, upgrade `A`, uninstall `A`, and leave the stores
`A: replicas: 1`, `A: replicas: 1`, `A: replicas: 2` and the empty one. -/
theorem C12_scenario {V B : Type} (env : Env V B) (b : B) (ro1 ro2 ro3 ro4 : RangeOrder)
    (v1 v2 : V) (h1 : env.unmarshal "replicas: 1" = some v1)
    (h2 : env.unmarshal "replicas: 2" = some v2)
    (hi : ∀ b n v, (env.helm.install b n v).2 = true)
    (hu : ∀ b n v, (env.helm.upgrade b n v).2 = true)
    (hd : ∀ b n, (env.helm.uninstall b n).2 = true) :
    (mainLoop env (scenario ro1 ro2 ro3 ro4) [] b).history.map Prod.snd =
      [[Event.mk (Call.install "A" v1) true], [], [Event.mk (Call.upgrade "A" v2) true],
       [Event.mk (Call.uninstall "A") true]] ∧
    (mainLoop env ((scenario ro1 ro2 ro3 ro4).take 1) [] b).handledConfigMaps =
      [("A", "replicas: 1")] ∧
    (mainLoop env ((scenario ro1 ro2 ro3 ro4).take 2) [] b).handledConfigMaps =
      [("A", "replicas: 1")] ∧
    (mainLoop env ((scenario ro1 ro2 ro3 ro4).take 3) [] b).handledConfigMaps =
      [("A", "replicas: 2")] ∧
    (mainLoop env (scenario ro1 ro2 ro3 ro4) [] b).handledConfigMaps = [] ∧
    (mainLoop env (scenario ro1 ro2 ro3 ro4) [] b).panic = none := by
  have l1 : ∀ ro b, reconcile env ro [triggerCM "A" "replicas: 1"] [] b =
      ⟨[("A", "replicas: 1")], [("A", "A")], (env.helm.install b "A" v1).1,
        [Event.mk (Call.install "A" v1) true]⟩ :=
    fun ro b => reconcile_single_install env ro b "A" "replicas: 1" v1 h1 (hi _ _ _)
  have l2 : ∀ ro b, reconcile env ro [triggerCM "A" "replicas: 1"] [("A", "replicas: 1")] b =
      ⟨[("A", "replicas: 1")], [("A", "A")], b, []⟩ :=
    fun ro b => reconcile_single_same env ro b "A" "replicas: 1"
  have l3 : ∀ ro b, reconcile env ro [triggerCM "A" "replicas: 2"] [("A", "replicas: 1")] b =
      ⟨[("A", "replicas: 2")], [("A", "A")], (env.helm.upgrade b "A" v2).1,
        [Event.mk (Call.upgrade "A" v2) true]⟩ :=
    fun ro b => reconcile_single_upgrade env ro b "A" "replicas: 1" "replicas: 2" v2
      (by decide) h2 (hu _ _ _)
  have l4 : ∀ ro b, reconcile env ro [] [("A", "replicas: 2")] b =
      ⟨[], [], (env.helm.uninstall b "A").1, [Event.mk (Call.uninstall "A") true]⟩ :=
    fun ro b => reconcile_single_uninstall env ro b "A" "replicas: 2" (hd _ _)
  refine ⟨?_, ?_, ?_, ?_, ?_, ?_⟩ <;>
    simp [mainLoop, scenario, runTick, l1, l2, l3, l4]

/-- C12 at the sample decoder and the backend whose every call succeeds. -/
theorem C12_scenario_witness :
    (mainLoop obligingEnv (scenario RangeOrder.stored RangeOrder.stored RangeOrder.stored
      RangeOrder.stored) [] ()).history.map Prod.snd =
      [[Event.mk (Call.install "A" "replicas:1") true], [],
       [Event.mk (Call.upgrade "A" "replicas:2") true], [Event.mk (Call.uninstall "A") true]] :=
  (C12_scenario obligingEnv () RangeOrder.stored RangeOrder.stored RangeOrder.stored
    RangeOrder.stored "replicas:1" "replicas:2" rfl rfl (fun _ _ _ => rfl) (fun _ _ _ => rfl)
    (fun _ _ => rfl)).1

/-- C13 (empty Desired Set).  For every store, a tick whose listing has no triggering
object (no object at all, or none with a true marker) issues uninstall calls only: exactly
one for each release of the store and none for any other release; if every one of them
succeeds, the store after the tick is empty. -/
theorem C13_empty_desired_set {V B : Type} (env : Env V B) (ro : RangeOrder)
    (items : List ConfigMap) (handled : GoMap) (b : B)
    (hempty : ∀ cm ∈ items, isTrigger cm = false) :
    (∀ e ∈ (reconcile env ro items handled b).trace, e.call.isUninstall = true) ∧
    (∀ id, handled.get? id ≠ none → ∃ ok,
      eventsFor id (reconcile env ro items handled b).trace =
        [Event.mk (Call.uninstall id) ok]) ∧
    (∀ id, handled.get? id = none →
      eventsFor id (reconcile env ro items handled b).trace = []) ∧
    ((∀ e ∈ (reconcile env ro items handled b).trace, e.ok = true) →
      (reconcile env ro items handled b).handledConfigMaps = []) := by
  have hu : ∀ id, Undesired items id := fun id cm hm ht => by
    rw [hempty cm hm] at ht; cases ht
  refine ⟨fun e he => ?_, fun id hid => ?_, fun id hid => ?_, fun hall => ?_⟩
  · rw [reconcile_marks env ro items handled b e he]
    exact (installLoop_frame env items e.call.name (hu _) (⟨handled, [], b, []⟩ : State V B)).2.1
  · cases hg : handled.get? id with
    | none => exact absurd hg hid
    | some old =>
      obtain ⟨ok, h1, _⟩ := reconcile_stale env ro items handled b id old (hu id) hg
      exact ⟨ok, h1⟩
  · exact (reconcile_absent env ro items handled b id (hu id) hid).1
  · apply GoMap.eq_nil_of_get?
    intro id
    cases hg : handled.get? id with
    | none => exact (reconcile_absent env ro items handled b id (hu id) hg).2
    | some old =>
      obtain ⟨ok, h1, h2⟩ := reconcile_stale env ro items handled b id old (hu id) hg
      have hin : Event.mk (Call.uninstall id) ok ∈
          eventsFor id (reconcile env ro items handled b).trace := by
        rw [h1]
        exact List.mem_singleton.2 rfl
      have hmem : Event.mk (Call.uninstall id) ok ∈ (reconcile env ro items handled b).trace :=
        mem_of_mem_eventsFor hin
      have hok : ok = true := hall _ hmem
      rw [h2, if_pos hok]

/-- C13 at a store with two releases and a listing without triggering objects. -/
theorem C13_empty_desired_set_witness :
    (∀ cm ∈ idleListing, isTrigger cm = false) ∧
    (reconcile sampleEnv RangeOrder.stored idleListing
      [("A", "replicas: 1"), ("C", "")] []).trace =
      [Event.mk (Call.uninstall "A") true, Event.mk (Call.uninstall "C") true] ∧
    (reconcile sampleEnv RangeOrder.stored idleListing
      [("A", "replicas: 1"), ("C", "")] []).handledConfigMaps = [] :=
  have hempty : ∀ cm ∈ idleListing, isTrigger cm = false := by decide
  ⟨hempty, by decide,
    (C13_empty_desired_set sampleEnv RangeOrder.stored idleListing
      [("A", "replicas: 1"), ("C", "")] [] hempty).2.2.2 (by decide)⟩

/-- C15 (no retry within a tick).  For every store, every listing whose triggering objects
have pairwise distinct names and every backend, failures included, a tick issues at most one
call (install, upgrade or uninstall) for each release: a failed call is not issued again and
no other operation on the release takes its place in the same tick. -/
theorem C15_at_most_one_call {V B : Type} (env : Env V B) (ro : RangeOrder)
    (items : List ConfigMap) (handled : GoMap) (b : B) (id : String)
    (hd : DistinctTriggers items) :
    (eventsFor id (reconcile env ro items handled b).trace).length ≤ 1 ∧
    ∀ e ∈ (reconcile env ro items handled b).trace, e.call.name = id →
      eventsFor id (reconcile env ro items handled b).trace = [e] := by
  have hlen := reconcile_at_most_one env ro items handled b id hd
  refine ⟨hlen, fun e he hn => ?_⟩
  have hmem := mem_eventsFor he hn
  cases hl : eventsFor id (reconcile env ro items handled b).trace with
  | nil => rw [hl] at hmem; cases hmem
  | cons x t =>
    rw [hl] at hlen hmem
    cases t with
    | nil => rw [List.mem_singleton.1 hmem]
    | cons y u => simp at hlen

/-- C15 at a backend whose first call fails: the failed install of `A` is the only call for
`A` in the tick. -/
theorem C15_at_most_one_call_witness :
    DistinctTriggers mixedListing ∧
    eventsFor "A" (reconcile sampleEnv RangeOrder.stored mixedListing [] [false]).trace =
      [Event.mk (Call.install "A" "replicas:1") false] :=
  ⟨by decide,
    (C15_at_most_one_call sampleEnv RangeOrder.stored mixedListing [] [false] "A"
      (by decide)).2 _ (by decide) rfl⟩

/-- C17, as stated, fails when the payload of the release does not decode: the tick skips
the release and creates no entry. -/
theorem C17_counterexample :
    GoMap.get? [] "A" = none ∧ Desired brokenListing "A" "a: b: c" ∧
    (reconcile sampleEnv RangeOrder.stored brokenListing [] []).handledConfigMaps.get? "A" =
      none :=
  ⟨rfl, ⟨triggerCM "A" "a: b: c", by decide, by decide, rfl, rfl⟩, by decide⟩

/-- C17 (entry created on first sighting), amended.  A release that has no entry when the
tick starts and is in the Desired Set of the tick with a payload that decodes has an entry
after the tick. -/
theorem C17_first_sight_creates_entry {V B : Type} (env : Env V B) (ro : RangeOrder)
    (items : List ConfigMap) (handled : GoMap) (b : B) (id P : String) (v : V)
    (he : handled.get? id = none) (hdes : Desired items id P)
    (hp : env.unmarshal P = some v) :
    (reconcile env ro items handled b).handledConfigMaps.get? id ≠ none := by
  have _ := he
  obtain ⟨cm, hm, ht, rfl, rfl⟩ := hdes
  have h1 := installLoop_entry_created env items cm v hm ht hp (⟨handled, [], b, []⟩ : State V B)
  have hseen := installLoop_seen env items cm hm ht (⟨handled, [], b, []⟩ : State V B)
  have hk := uninstallFold_kept env
    (ro.order (installLoop env ⟨handled, [], b, []⟩ items).handledConfigMaps.keys) cm.Name
    (installLoop env ⟨handled, [], b, []⟩ items) hseen
  unfold reconcile uninstallLoop
  rw [hk.1]
  exact h1

/-- C17, amended, at a backend whose first call fails: the entry is there, with the empty
string. -/
theorem C17_first_sight_creates_entry_witness :
    GoMap.get? [] "A" = none ∧ Desired mixedListing "A" "replicas: 1" ∧
    (reconcile sampleEnv RangeOrder.stored mixedListing [] [false]).handledConfigMaps.get? "A" ≠
      none :=
  have hdes : Desired mixedListing "A" "replicas: 1" :=
    ⟨triggerCM "A" "replicas: 1", by decide, by decide, rfl, rfl⟩
  ⟨rfl, hdes,
    C17_first_sight_creates_entry sampleEnv RangeOrder.stored mixedListing [] [false] "A"
      "replicas: 1" "replicas:1" rfl hdes rfl⟩

/-- C18 (marker removal uninstalls).  Let `id` have an entry, let an object named `id` be
listed, and let no listed object named `id` bear a true trigger marker.  Whatever the
payloads of these objects, the tick issues exactly one call for `id`, an uninstall, and its
result is the result of the tick on the listing without the objects named `id`. -/
theorem C18_marker_removed {V B : Type} (env : Env V B) (ro : RangeOrder)
    (items : List ConfigMap) (handled : GoMap) (b : B) (id old : String)
    (he : handled.get? id = some old) (hlisted : ∃ cm ∈ items, cm.Name = id)
    (hu : Undesired items id) :
    (∃ ok, eventsFor id (reconcile env ro items handled b).trace =
      [Event.mk (Call.uninstall id) ok]) ∧
    reconcile env ro items handled b =
      reconcile env ro (items.filter (fun cm => decide (cm.Name ≠ id))) handled b := by
  have _ := hlisted
  constructor
  · obtain ⟨ok, h1, _⟩ := reconcile_stale env ro items handled b id old hu he
    exact ⟨ok, h1⟩
  · unfold reconcile
    rw [installLoop_filter env items _ (fun cm hm hp => by
      cases ht : isTrigger cm with
      | false => rfl
      | true =>
        have hne := hu cm hm ht
        simp [hne] at hp)]

/-- C18 at a store that tracks `B` and a listing where `B` is listed without the marker. -/
theorem C18_marker_removed_witness :
    GoMap.get? [("B", "replicas: 3")] "B" = some "replicas: 3" ∧
    (∃ cm ∈ mixedListing, cm.Name = "B") ∧ Undesired mixedListing "B" ∧
    ∃ ok, eventsFor "B" (reconcile sampleEnv RangeOrder.stored mixedListing
      [("B", "replicas: 3")] []).trace = [Event.mk (Call.uninstall "B") ok] :=
  have hlisted : ∃ cm ∈ mixedListing, cm.Name = "B" := ⟨plainCM "B" "replicas: 3", by decide, rfl⟩
  have hu : Undesired mixedListing "B" := by decide
  ⟨rfl, hlisted, hu,
    (C18_marker_removed sampleEnv RangeOrder.stored mixedListing [("B", "replicas: 3")] []
      "B" "replicas: 3" rfl hlisted hu).1⟩

/-- C20 (key set after a tick).  After a tick that completes, every release with an entry
in the store is in the Desired Set of the tick or is a release whose uninstall call failed
in the tick; in particular, if every uninstall call of the tick succeeds, every release
with an entry is in the Desired Set. -/
theorem C20_keys_after_tick {V B : Type} (env : Env V B) (ro : RangeOrder)
    (items : List ConfigMap) (handled : GoMap) (b : B) :
    tick env ro (Except.ok items) handled b = Except.ok (reconcile env ro items handled b) ∧
    (∀ id, (reconcile env ro items handled b).handledConfigMaps.get? id ≠ none →
      (∃ cm ∈ items, isTrigger cm = true ∧ cm.Name = id) ∨
        Event.mk (Call.uninstall id) false ∈ (reconcile env ro items handled b).trace) ∧
    ((∀ e ∈ (reconcile env ro items handled b).trace, e.call.isUninstall = true → e.ok = true) →
      ∀ id, (reconcile env ro items handled b).handledConfigMaps.get? id ≠ none →
        ∃ cm ∈ items, isTrigger cm = true ∧ cm.Name = id) := by
  refine ⟨rfl, fun id h => reconcile_kept_entry env ro items handled b id h, fun hall id h => ?_⟩
  rcases reconcile_kept_entry env ro items handled b id h with hdes | hfail
  · exact hdes
  · have := hall _ hfail rfl
    cases this

/-- C14 (per-release independence).  Take two ticks, each on a listing whose triggering
objects have pairwise distinct names, with any stores, backends and decoders.  If the two
stores agree on `id`, the two Desired Sets agree on `id`, and the two decoders agree on the
payload of `id`, then the two ticks issue the same calls for `id`, in the same order; if
moreover the outcomes of these calls agree, the two ticks have the same events for `id` and
end with the same entry for `id`.  Nothing is assumed about the other releases. -/
theorem C14_release_independence {V B1 B2 : Type} (env1 : Env V B1) (env2 : Env V B2)
    (ro1 ro2 : RangeOrder) (items1 items2 : List ConfigMap) (handled1 handled2 : GoMap)
    (b1 : B1) (b2 : B2) (id : String)
    (hd1 : DistinctTriggers items1) (hd2 : DistinctTriggers items2)
    (hstore : handled1.get? id = handled2.get? id)
    (hdes : ∀ Q, Desired items1 id Q ↔ Desired items2 id Q)
    (hparse : ∀ Q, Desired items1 id Q → env1.unmarshal Q = env2.unmarshal Q) :
    (eventsFor id (reconcile env1 ro1 items1 handled1 b1).trace).map Event.call =
      (eventsFor id (reconcile env2 ro2 items2 handled2 b2).trace).map Event.call ∧
    ((eventsFor id (reconcile env1 ro1 items1 handled1 b1).trace).map Event.ok =
        (eventsFor id (reconcile env2 ro2 items2 handled2 b2).trace).map Event.ok →
      eventsFor id (reconcile env1 ro1 items1 handled1 b1).trace =
        eventsFor id (reconcile env2 ro2 items2 handled2 b2).trace ∧
      (reconcile env1 ro1 items1 handled1 b1).handledConfigMaps.get? id =
        (reconcile env2 ro2 items2 handled2 b2).handledConfigMaps.get? id) := by
  have p1 := reconcile_planned env1 ro1 items1 handled1 b1 id hd1
  have p2 := reconcile_planned env2 ro2 items2 handled2 b2 id hd2
  have a1 := reconcile_entry_after env1 ro1 items1 handled1 b1 id hd1
  have a2 := reconcile_entry_after env2 ro2 items2 handled2 b2 id hd2
  rcases desired_or_undesired items1 id with ⟨cm, hm, ht, hn⟩ | hu1
  · have hq1 : Desired items1 id (valuesYaml cm) := ⟨cm, hm, ht, hn, rfl⟩
    have hq2 := (hdes _).1 hq1
    have hcalls : (eventsFor id (reconcile env1 ro1 items1 handled1 b1).trace).map Event.call =
        (eventsFor id (reconcile env2 ro2 items2 handled2 b2).trace).map Event.call := by
      rw [p1.1 _ hq1, p2.1 _ hq2, hstore,
        plannedCall_congr env1.unmarshal env2.unmarshal id _ _
          (fun p hp => by rw [← Option.some.inj hp]; exact hparse _ hq1)]
    refine ⟨hcalls, fun hoks => ?_⟩
    have hev := events_ext _ _ hcalls hoks
    exact ⟨hev, by rw [a1.1 _ hq1, a2.1 _ hq2, hstore, hev]⟩
  · have hu2 : Undesired items2 id := by
      intro cm hm ht hn
      obtain ⟨c1, hm1, ht1, hn1, _⟩ := (hdes (valuesYaml cm)).2 ⟨cm, hm, ht, hn, rfl⟩
      exact hu1 c1 hm1 ht1 hn1
    have hcalls : (eventsFor id (reconcile env1 ro1 items1 handled1 b1).trace).map Event.call =
        (eventsFor id (reconcile env2 ro2 items2 handled2 b2).trace).map Event.call := by
      rw [p1.2 hu1, p2.2 hu2, hstore,
        plannedCall_congr env1.unmarshal env2.unmarshal id _ none (fun p hp => by cases hp)]
    refine ⟨hcalls, fun hoks => ?_⟩
    have hev := events_ext _ _ hcalls hoks
    exact ⟨hev, by rw [a1.2 hu1, a2.2 hu2, hstore, hev]⟩

/-- C14 at two ticks that differ in everything but release `A`: other objects, other store
entries, and a second release installed in one of them only. -/
theorem C14_release_independence_witness :
    DistinctTriggers mixedListing ∧ DistinctTriggers busyListing ∧
    GoMap.get? [] "A" = GoMap.get? [("C", "old")] "A" ∧
    eventsFor "A" (reconcile sampleEnv RangeOrder.stored mixedListing [] [false]).trace =
      eventsFor "A" (reconcile sampleEnv RangeOrder.stored busyListing
        [("C", "old")] [false, false, false]).trace ∧
    (reconcile sampleEnv RangeOrder.stored mixedListing [] [false]).handledConfigMaps.get? "A" =
      (reconcile sampleEnv RangeOrder.stored busyListing
        [("C", "old")] [false, false, false]).handledConfigMaps.get? "A" :=
  have hdes : ∀ Q, Desired mixedListing "A" Q ↔ Desired busyListing "A" Q := by
    intro Q
    constructor
    · rintro ⟨cm, hm, ht, hn, hv⟩
      refine ⟨triggerCM "A" "replicas: 1", by decide, by decide, rfl, ?_⟩
      simp only [mixedListing, List.mem_cons, List.mem_singleton, List.not_mem_nil,
        or_false] at hm
      rcases hm with h | h
      · rw [h] at ht; exact absurd ht (by decide)
      · rw [h] at hv; exact hv
    · rintro ⟨cm, hm, ht, hn, hv⟩
      refine ⟨triggerCM "A" "replicas: 1", by decide, by decide, rfl, ?_⟩
      simp only [busyListing, List.mem_cons, List.mem_singleton, List.not_mem_nil,
        or_false] at hm
      rcases hm with h | h
      · rw [h] at hv; exact hv
      · rw [h] at hn; exact absurd hn (by decide)
  have h := C14_release_independence sampleEnv sampleEnv RangeOrder.stored RangeOrder.stored
    mixedListing busyListing [] [("C", "old")] [false] [false, false, false] "A"
    (by decide) (by decide) rfl hdes (fun _ _ => rfl)
  ⟨by decide, by decide, rfl, (h.2 (by decide)).1, (h.2 (by decide)).2⟩

/-- C16 (entry-existence invariant).  In every state that a run of the loop reaches from the
empty store, with any listings, failed listings included, and any backend, a release has an
entry if and only if an install call has been issued for it, successfully or not, and no
uninstall of it has succeeded since the most recent such call.  An entry that a tick
creates comes with an install call of that tick: an upgrade or a payload that does not
decode creates none. -/
theorem C16_entry_iff_installed {V B : Type} (env : Env V B)
    (ticks : List (RangeOrder × Except String (List ConfigMap))) (b : B) (id : String) :
    ((mainLoop env ticks [] b).handledConfigMaps.get? id ≠ none ↔
      InstalledSince id (mainLoop env ticks [] b).trace) ∧
    (∀ (ro : RangeOrder) (items : List ConfigMap) (handled : GoMap) (b1 : B),
      handled.get? id = none →
      (reconcile env ro items handled b1).handledConfigMaps.get? id ≠ none →
      ∃ v ok, Event.mk (Call.install id v) ok ∈ (reconcile env ro items handled b1).trace) := by
  constructor
  · refine runTicks_tracks env ticks ⟨[], b, [], none⟩ (fun i => ?_) id
    exact ⟨fun h => absurd rfl h, fun h => absurd h (installedSince_nil i)⟩
  · exact fun ro items handled b1 he h =>
      reconcile_created_by_install env ro items handled b1 id he h

/-- C19 (fingerprint value invariant) at the empty payload.  Release `A` is untracked and its
triggering ConfigMap has no `values.yaml` field, so its payload is the empty string.  The
install of `A` fails, and the entry after the tick is the empty string: the value stored is
the payload whose install failed. -/
theorem C19_failed_payload_stored :
    UniqueNames [bareTriggerCM "A"] ∧ valuesYaml (bareTriggerCM "A") = "" ∧
    (mainLoop sampleEnv [(RangeOrder.stored, Except.ok [bareTriggerCM "A"])] [] [false]).trace =
      [Event.mk (Call.install "A" "") false] ∧
    (mainLoop sampleEnv [(RangeOrder.stored, Except.ok [bareTriggerCM "A"])] []
      [false]).handledConfigMaps.get? "A" = some (valuesYaml (bareTriggerCM "A")) := by
  decide

end CmToHelm
